import Mathlib

/-!
# ECDSA and adaptor signatures (package `secp256k1`)

A shallow embedding of `keys.go` and `adaptor.go`.

* Scalars (`Fn`, `ModNScalar`) and field elements (`Fp`) are natural numbers;
  every scalar operation reduces modulo the group order `n` explicitly.
* The elliptic-curve library is an external collaborator.  It enters as a
  record `Curve` of operations; the group laws it is expected to satisfy are
  the separate predicate `Curve.Lawful`, so that the embedded functions can be
  evaluated on any record, lawful or not.
* A Go call ends in a value, an `error`, or a panic: `Go α`.
-/

namespace Adaptor

/-! ## Bytes -/

abbrev Byte := Fin 256

/-- Big-endian value of a byte slice. -/
def beToNat (b : List Byte) : Nat :=
  b.foldl (fun acc x => acc * 256 + x.val) 0

/-- Big-endian encoding of `v` on exactly `k` bytes (high bytes dropped). -/
def putBE : Nat → Nat → List Byte
  | 0, _ => []
  | k + 1, v => putBE k (v / 256) ++ [Fin.ofNat (v % 256)]

/-- `PutB32` / `PutBytesUnchecked`: the 32-byte big-endian form of a value. -/
def putB32 (v : Nat) : List Byte := putBE 32 v

/-- The Go slice expression `b[lo:hi]`. -/
def slice (b : List Byte) (lo hi : Nat) : List Byte := (b.take hi).drop lo

/-- Writing `src` through the window `dst[lo:hi]`: at most `hi - lo` bytes are
copied, the rest of `dst` keeps its content and `dst` keeps its length. -/
def copyAt (dst : List Byte) (lo hi : Nat) (src : List Byte) : List Byte :=
  dst.take lo ++ (src ++ (dst.take hi).drop (lo + src.length)).take (hi - lo) ++ dst.drop hi

/-! ## Errors and outcomes -/

/-- Errors raised by the collaborators (curve library, nonce source). -/
inductive ExtError
  | pointAtInfinity
  | pointDecode
  | other (code : Nat)
  deriving DecidableEq, Repr

/-- The `error` values a call of this package can return, one constructor per
message of its `errors.New` / `fmt.Errorf` sites, and `external` for an error
handed through from a collaborator. -/
inductive Error
  | invalidMessageLength
  | invalidLength
  | rCheckFailed
  | yCheckFailed
  | external (e : ExtError)
  deriving DecidableEq, Repr

/-- How a call can end without a value. -/
inductive Fault
  | err (e : Error)
  | panicked
  deriving DecidableEq, Repr

deriving instance DecidableEq for Except

/-- Outcome of a Go call. -/
abbrev Go (α : Type) := Except Fault α

/-- The `(bool, error)` pair a verification call hands back; `none` stands for
a panic.  Every error return of the source carries the literal `false`. -/
def goPair : Go Bool → Option (Bool × Option Error)
  | .ok b => some (b, none)
  | .error (.err e) => some (false, some e)
  | .error .panicked => none

/-! ## Scalars modulo the group order -/

/-- Square-and-multiply loop: `fuel`, base, exponent, accumulator. -/
def powModAux (m : Nat) : Nat → Nat → Nat → Nat → Nat
  | 0, _, _, acc => acc
  | fuel + 1, b, e, acc =>
    if e = 0 then acc
    else powModAux m fuel (b * b % m) (e / 2) (if e % 2 = 1 then acc * b % m else acc)

/-- Modular exponentiation `b ^ e mod m` by repeated squaring. -/
def powMod (m b e : Nat) : Nat := powModAux m e (b % m) e (1 % m)

/-- `Fn.Inverse` / `ModNScalar.InverseValNonConst`: the inverse modulo the
prime `n`; the inverse of zero is zero. -/
def inverse (n a : Nat) : Nat := powMod n a (n - 2)

/-- `Fn.SetB32`: read 32 big-endian bytes, reduce modulo `n`, report overflow.
Every caller in this package passes exactly 32 bytes. -/
def SetB32 (n : Nat) (bs : List Byte) : Nat × Bool :=
  (beToNat bs % n, decide (n ≤ beToNat bs))

/-- `ModNScalar.SetByteSlice`: the slice is truncated to its first 32 bytes
(a shorter one counts as left-padded with zeros), reduced modulo `n`; the flag
says whether the value read was at least `n`. -/
def SetByteSlice (n : Nat) (b : List Byte) : Nat × Bool :=
  (beToNat (b.take 32) % n, decide (n ≤ beToNat (b.take 32)))

/-- `ModNScalar.IsOverHalfOrder`. -/
def IsOverHalfOrder (n s : Nat) : Bool := decide (n / 2 < s)

/-- `ModNScalar.Negate`. -/
def Negate (n s : Nat) : Nat := (n - s % n) % n

/-! ## The curve library -/

/-- Operations of the external point library. `X` reads the affine
x-coordinate field; `putBytes` / `setBytes` are the 33-byte compressed
codec of the package's `Point` type. -/
structure Curve where
  Point : Type
  deq : DecidableEq Point
  p : Nat
  n : Nat
  infinity : Point
  G : Point
  add : Point → Point → Point
  neg : Point → Point
  X : Point → Nat
  onCurve : Point → Bool
  putBytes : Point → List Byte
  setBytes : List Byte → Except ExtError Point

instance (C : Curve) : DecidableEq C.Point := C.deq

/-- Double-and-add loop: `fuel`, base, scalar, accumulator. -/
def scaleAux (C : Curve) : Nat → C.Point → Nat → C.Point → C.Point
  | 0, _, _, acc => acc
  | fuel + 1, base, k, acc =>
    if k = 0 then acc
    else scaleAux C fuel (C.add base base) (k / 2) (if k % 2 = 1 then C.add acc base else acc)

/-- `Point.Scale`: scalar multiplication by double-and-add. -/
def Curve.Scale (C : Curve) (P : C.Point) (k : Nat) : C.Point :=
  scaleAux C k P k C.infinity

/-- `Point.BaseExp`: scalar multiplication of the base point. -/
def Curve.BaseExp (C : Curve) (k : Nat) : C.Point := C.Scale C.G k

/-- `Point.XY`: the coordinates, or an error for the point at infinity.
Only the x-coordinate is kept: every caller discards `y`. -/
def Curve.XY (C : Curve) (P : C.Point) : Go Nat :=
  if P = C.infinity then .error (.err (.external .pointAtInfinity)) else .ok (C.X P)

/-! ## keys.go -/

/-- The constant `MessageLength`. -/
def MessageLength : Nat := 32

structure Keypair (C : Curve) where
  privateKey : Nat
  publicKey : C.Point

structure Signature where
  v : Nat
  r : Nat
  s : Nat
  deriving DecidableEq, Repr

/-- `GenerateKeypair`, with the scalar drawn by `RandomFn` as argument. -/
def GenerateKeypair (C : Curve) (priv : Nat) : Keypair C :=
  { privateKey := priv, publicKey := C.BaseExp priv }

/-- `fpToFn`: the field element goes through its 32 bytes into a scalar and
the call panics when the bytes overflow the group order. -/
def fpToFn (C : Curve) (fp : Nat) : Go Nat :=
  let b := putB32 fp
  let (fn, overflow) := SetB32 C.n b
  if overflow then .error .panicked else .ok fn

/-- The ambient random generator behind `RandomFnNoPanic`: `out i` is the
outcome of the `i`-th draw and `pos` counts the draws made so far. -/
structure RandSource where
  pos : Nat
  out : Nat → Except ExtError Nat

/-- `RandomFnNoPanic`: one draw, a scalar below `n` or an error. -/
def RandomFnNoPanic (C : Curve) (rs : RandSource) : Except ExtError Nat × RandSource :=
  ((rs.out rs.pos).map (fun k => k % C.n), { rs with pos := rs.pos + 1 })

/-- The function `sign(k, z, x)`. -/
def sign (C : Curve) (k z x : Nat) : Go Signature := do
  let kinv := inverse C.n k
  let R := C.BaseExp k
  let r_fp ← C.XY R
  let r ← fpToFn C r_fp
  let rx := r * x % C.n
  let sum := (z + rx) % C.n
  let s := sum * kinv % C.n
  pure { r := r, s := s, v := 0 }

/-- `Keypair.Sign`. -/
def Sign (C : Curve) (kp : Keypair C) (msg : List Byte) (rs : RandSource) :
    Go Signature × RandSource :=
  if msg.length ≠ MessageLength then (.error (.err .invalidMessageLength), rs)
  else
    match RandomFnNoPanic C rs with
    | (.error e, rs1) => (.error (.err (.external e)), rs1)
    | (.ok k, rs1) =>
      let z := (SetB32 C.n msg).1
      (sign C k z kp.privateKey, rs1)

/-- `PublicKey.Verify`. -/
def Verify (C : Curve) (key : C.Point) (msg : List Byte) (sig : Signature) : Go Bool :=
  if msg.length ≠ MessageLength then .error (.err .invalidMessageLength)
  else do
    let z := (SetB32 C.n msg).1
    let rP := C.Scale key sig.r
    let sinv := inverse C.n sig.s
    let zG := C.BaseExp z
    let sum := C.add rP zG
    let R := C.Scale sum sinv
    let rx ← C.XY R
    let r ← fpToFn C rx
    pure (decide (r = sig.r))

/-! ## DLEQ proofs -/

structure dleqProof where
  z : Nat
  s : Nat
  deriving DecidableEq, Repr

/-- The Fiat-Shamir hash `Hash(G, Y, R_a, R, A, B)` of the proof engine. -/
abbrev DleqHash (C : Curve) :=
  C.Point → C.Point → C.Point → C.Point → C.Point → C.Point → Nat

/-- Modelled from the spec: `dleqProve` is not among the source files.  With
the sampled nonce `t` (or the failure of the sampling primitive) as argument:
`A = t*G`, `B = t*Y`, the challenge `c = Hash(G, Y, R_a, R, A, B)` reduced into
the scalar field is the `z` field, the response `t + c*k mod n` the `s` field. -/
def dleqProve (C : Curve) (H : DleqHash C) (t : Except ExtError Nat)
    (k : Nat) (R_a R Y : C.Point) : Except ExtError dleqProof :=
  match t with
  | .error e => .error e
  | .ok t =>
    let A := C.BaseExp t
    let B := C.Scale Y t
    let c := H C.G Y R_a R A B % C.n
    .ok { z := c, s := (t + c * k % C.n) % C.n }

/-- Modelled from the spec: `dleqVerify` is not among the source files.
`A' = s_p*G - c*R_a`, `B' = s_p*Y - c*R`; accept iff
`Hash(G, Y, R_a, R, A', B') == c`. -/
def dleqVerify (C : Curve) (H : DleqHash C) (Y : C.Point) (proof : dleqProof)
    (R_a R : C.Point) : Bool :=
  let A := C.add (C.BaseExp proof.s) (C.neg (C.Scale R_a proof.z))
  let B := C.add (C.Scale Y proof.s) (C.neg (C.Scale R proof.z))
  decide (H C.G Y R_a R A B % C.n = proof.z)

/-! ## adaptor.go -/

structure EncryptedSignature (C : Curve) where
  R : C.Point
  R_a : C.Point
  s : Nat
  proof : dleqProof
  deriving DecidableEq

/-- `EncryptedSignature.Decrypt`. -/
def Decrypt (C : Curve) (a : EncryptedSignature C) (sk : Nat) : Go Signature :=
  let y_inv := inverse C.n sk
  let s := a.s * y_inv % C.n
  let s := if IsOverHalfOrder C.n s then Negate C.n s else s
  let r := C.X a.R
  .ok { r := r, s := s, v := 0 }

/-- The constant `encodedAdaptorSize`. -/
def encodedAdaptorSize : Nat := 33 + 33 + (32 * 3)

/-- `EncryptedSignature.Encode`: the bytes returned, and the receiver as the
call leaves it (`s.s` is a pointer, `SetByteSlice` writes through it). -/
def Encode (C : Curve) (a : EncryptedSignature C) :
    Except Error (List Byte) × EncryptedSignature C :=
  let b : List Byte := List.replicate encodedAdaptorSize 0
  let b := copyAt b 0 33 (C.putBytes a.R)
  let b := copyAt b 33 66 (C.putBytes a.R_a)
  let s := (SetByteSlice C.n (slice b 66 98)).1
  let b := copyAt b 98 (98 + 32) (putB32 a.proof.z)
  let b := copyAt b (98 + 32) encodedAdaptorSize (putB32 a.proof.s)
  (.ok b, { a with s := s })

/-- `EncryptedSignature.Decode`: the receiver after a successful call. The
receiver is assigned only on success. -/
def Decode (C : Curve) (b : List Byte) : Except Error (EncryptedSignature C) :=
  if b.length ≠ encodedAdaptorSize then .error .invalidLength
  else
    match C.setBytes (b.take 33) with
    | .error e => .error (.external e)
    | .ok R =>
      let b := b.drop 33
      match C.setBytes (b.take 33) with
      | .error e => .error (.external e)
      | .ok R_a =>
        let b := b.drop 33
        let s_a := (SetByteSlice C.n (b.take 32)).1
        let b := b.drop 32
        let z := (SetByteSlice C.n (b.take 32)).1
        let b := b.drop 32
        let s_p := (SetByteSlice C.n (b.take 32)).1
        .ok { s := s_a, R_a := R_a, R := R, proof := { z := z, s := s_p } }

/-- A nonce function `func() (*ModNScalar, error)`; a call may advance the
state `σ` the closure holds. -/
abbrev NonceFunc (σ : Type) := σ → Except ExtError Nat × σ

/-- `Keypair.AdaptorSign`. `WithRFC6979` is the default nonce function built
from the private key, the message and the encryption key; `nonceFnOpt` is the
variadic argument; `t` is the sample `dleqProve` draws. The second `err` test
of the source, after `r_fp := R.X`, re-reads the nil error of the nonce call
and never fires. -/
def AdaptorSign (C : Curve) (H : DleqHash C) {σ : Type}
    (WithRFC6979 : Nat → List Byte → C.Point → NonceFunc σ)
    (kp : Keypair C) (msg : List Byte) (encKey : C.Point)
    (nonceFnOpt : List (NonceFunc σ)) (t : Except ExtError Nat) (st : σ) :
    Go (EncryptedSignature C) × σ :=
  let Y := encKey
  let (z, overflow) := SetByteSlice C.n msg
  if overflow then (.error (.err .invalidMessageLength), st)
  else
    let x := kp.privateKey
    let nonceFn := WithRFC6979 kp.privateKey msg encKey
    let nonceFn := match nonceFnOpt with
      | [] => nonceFn
      | f :: _ => f
    match nonceFn st with
    | (.error e, st1) => (.error (.err (.external e)), st1)
    | (.ok k, st1) =>
      let R_a := C.BaseExp k
      let R := C.Scale Y k
      let r_fp := C.X R
      match fpToFn C r_fp with
      | .error f => (.error f, st1)
      | .ok r =>
        let kinv := inverse C.n k
        let s := ((r * x % C.n) + z) % C.n * kinv % C.n
        match dleqProve C H t k R_a R Y with
        | .error e => (.error (.err (.external e)), st1)
        | .ok proof => (.ok { R := R, R_a := R_a, s := s, proof := proof }, st1)

/-- `PublicKey.VerifyAdaptor`. -/
def VerifyAdaptor (C : Curve) (H : DleqHash C) (key : C.Point) (msg : List Byte)
    (encryptionKey : C.Point) (adaptor : EncryptedSignature C) : Go Bool :=
  let (z, overflow) := SetByteSlice C.n msg
  if overflow then .error (.err .invalidMessageLength)
  else do
    let r := C.X adaptor.R
    let zG := C.BaseExp z
    let rP := C.Scale key (← fpToFn C r)
    let sum := C.add zG rP
    let s_inv := inverse C.n adaptor.s
    let R := C.Scale sum s_inv
    if R ≠ adaptor.R_a then pure false
    else pure (dleqVerify C H encryptionKey adaptor.proof adaptor.R_a adaptor.R)

/-- `RecoverFromAdaptorAndSignature`. -/
def RecoverFromAdaptorAndSignature (C : Curve) (adaptor : EncryptedSignature C)
    (encryptionKey : C.Point) (sig : Signature) : Go Nat := do
  let r ← C.XY adaptor.R
  if r ≠ sig.r then .error (.err .rCheckFailed)
  else
    let s_inv := inverse C.n sig.s
    let y := s_inv * adaptor.s % C.n
    let Y := C.BaseExp y
    if encryptionKey = Y then pure y
    else
      let negY := C.neg Y
      if encryptionKey = negY then pure (Negate C.n y)
      else .error (.err .yCheckFailed)

/-! ## Short Weierstrass curves in affine coordinates

A concrete point library `y² = x³ + a·x + b` over the prime field of size `p`,
to run the embedded functions on: the curve secp256k1 itself and a curve of the
same shape with 31 points. -/

/-- An affine point, `none` for the point at infinity. -/
abbrev Affine := Option (Nat × Nat)

/-- Chord-and-tangent addition. -/
def affAdd (p a : Nat) : Affine → Affine → Affine
  | none, Q => Q
  | some P, none => some P
  | some (x1, y1), some (x2, y2) =>
    if x1 = x2 then
      if (y1 + y2) % p = 0 then none
      else
        let l := (3 * x1 * x1 + a) * inverse p (2 * y1) % p
        let x3 := (l * l + (p - x1) + (p - x2)) % p
        some (x3, (l * (x1 + (p - x3)) + (p - y1)) % p)
    else
      let l := (y2 + (p - y1)) * inverse p (x2 + (p - x1)) % p
      let x3 := (l * l + (p - x1) + (p - x2)) % p
      some (x3, (l * (x1 + (p - x3)) + (p - y1)) % p)

/-- Negation: the mirror point. -/
def affNeg (p : Nat) : Affine → Affine
  | none => none
  | some (x, y) => some (x, (p - y) % p)

/-- Membership: reduced coordinates satisfying the curve equation. -/
def affOn (p a b : Nat) : Affine → Bool
  | none => true
  | some (x, y) => decide (x < p) && decide (y < p) &&
      decide (y * y % p = (x * x * x + a * x + b) % p)

/-- The x-coordinate field; it reads zero on the point at infinity. -/
def affX : Affine → Nat
  | none => 0
  | some (x, _) => x

/-- Modelled from the spec: `Point.PutBytes` is not among the source files.
Compressed point: 33 bytes = sign-byte(1) || X(32), the sign byte being `0x02`
for an even and `0x03` for an odd y-coordinate; the point at infinity, which
has no such form, writes nothing. -/
def affPutBytes : Affine → List Byte
  | none => []
  | some (x, y) => (if y % 2 = 0 then 2 else 3) :: putB32 x

/-- Modelled from the spec: `Point.SetBytes` is not among the source files.
It reads the 33-byte compressed form and fails with the point-decode error
unless the bytes name a point on the curve (`p ≡ 3 mod 4`, so a square root is
a power). -/
def affSetBytes (p a b : Nat) (bs : List Byte) : Except ExtError Affine :=
  match bs with
  | [] => .error .pointDecode
  | t :: xs =>
    if xs.length ≠ 32 then .error .pointDecode
    else if t.val ≠ 2 ∧ t.val ≠ 3 then .error .pointDecode
    else
      let x := beToNat xs
      if p ≤ x then .error .pointDecode
      else
        let rhs := (x * x * x + a * x + b) % p
        let y := powMod p rhs ((p + 1) / 4)
        if y * y % p ≠ rhs then .error .pointDecode
        else .ok (some (x, if y % 2 = t.val % 2 then y else (p - y) % p))

/-- The point library for `y² = x³ + a·x + b` over `p` with base point `G` of
order `n`. -/
def weierstrass (p a b n : Nat) (G : Nat × Nat) : Curve where
  Point := Affine
  deq := inferInstance
  p := p
  n := n
  infinity := none
  G := some G
  add := affAdd p a
  neg := affNeg p
  X := affX
  onCurve := affOn p a b
  putBytes := affPutBytes
  setBytes := affSetBytes p a b

/-- The curve secp256k1. -/
def secp256k1 : Curve :=
  weierstrass
    0xFFFFFFFFFFFFFFFFFFFFFFFFFFFFFFFFFFFFFFFFFFFFFFFFFFFFFFFEFFFFFC2F 0 7
    0xFFFFFFFFFFFFFFFFFFFFFFFFFFFFFFFEBAAEDCE6AF48A03BBFD25E8CD0364141
    (0x79BE667EF9DCBBAC55A06295CE870B07029BFCDB2DCE28D959F2815B16F81798,
     0x483ADA7726A3C4655DA4FBFC0E1108A8FD17B448A68554199C47D08FFB10D4B8)

/-- The curve `y² = x³ + 7` over the field of 43 elements: 31 points, base
point `(2, 12)`. -/
def toy : Curve := weierstrass 43 0 7 31 (2, 12)

/-- All points of `y² = x³ + a·x + b` over `p`. -/
def affPoints (p a b : Nat) : List Affine :=
  none :: (((List.range p).product (List.range p)).filter
    (fun q => affOn p a b (some q))).map some

/-! ## Public-key recovery by an independent implementation -/

/-- Public-key recovery as an independent ECDSA implementation performs it
(SEC 1, section 4.1.6) on `y² = x³ + a·x + b`; it is not part of the package.
The low bit of `v` names the parity of the ephemeral point's y-coordinate, the
next bit says whether its x-coordinate is `r + n`; with `u1 = -z/r` and
`u2 = s/r` the key is `u2*R + u1*G`. -/
def recoverPubkey (p a b n : Nat) (G : Nat × Nat) (msg : List Byte) (sig : Signature) :
    Option Affine :=
  let C := weierstrass p a b n G
  let z := beToNat msg % n
  let x := if sig.v / 2 % 2 = 1 then sig.r + n else sig.r
  if p ≤ x then none
  else
    let rhs := (x * x * x + a * x + b) % p
    let y := powMod p rhs ((p + 1) / 4)
    if y * y % p ≠ rhs then none
    else
      let R : Affine := some (x, if y % 2 = sig.v % 2 then y else (p - y) % p)
      let rinv := inverse n sig.r
      let u1 := Negate n (z * rinv % n)
      let u2 := sig.s * rinv % n
      some (C.add (C.Scale R u2) (C.BaseExp u1))

/-- Public-key recovery on secp256k1. -/
def secpRecover (msg : List Byte) (sig : Signature) : Option Affine :=
  recoverPubkey
    0xFFFFFFFFFFFFFFFFFFFFFFFFFFFFFFFFFFFFFFFFFFFFFFFFFFFFFFFEFFFFFC2F 0 7
    0xFFFFFFFFFFFFFFFFFFFFFFFFFFFFFFFEBAAEDCE6AF48A03BBFD25E8CD0364141
    (0x79BE667EF9DCBBAC55A06295CE870B07029BFCDB2DCE28D959F2815B16F81798,
     0x483ADA7726A3C4655DA4FBFC0E1108A8FD17B448A68554199C47D08FFB10D4B8) msg sig

/-! ## Example data -/

/-- A Fiat-Shamir hash for the examples. -/
def affHash : Affine → Affine → Affine → Affine → Affine → Affine → Nat :=
  fun _ Y R_a R A B => affX Y + 2 * affX R_a + 3 * affX R + 5 * affX A + 7 * affX B

/-- The nonce function that returns `k`. -/
def constNonce (k : Nat) : NonceFunc Unit := fun st => (.ok k, st)

/-- A random source whose every draw is `k`. -/
def constSource (k : Nat) : RandSource := { pos := 0, out := fun _ => .ok k }

/-- On the 31-point curve: the adaptor `AdaptorSign` returns for the signer key
3, the digest 5, the encryption key `2*G`, the nonce 2 and the sample 6. -/
def toyAdaptor : EncryptedSignature toy :=
  { R := some (21, 18), R_a := some (7, 7), s := 3, proof := { z := 23, s := 21 } }

/-- On secp256k1: the digest `n - G.x`, for which `z + r*x` vanishes when the
signer key is 1 and the ephemeral point is `G`. -/
def zeroDigest : List Byte := putB32 (secp256k1.n - secp256k1.X secp256k1.G)

/-- On secp256k1: the adaptor `AdaptorSign` returns for the signer key 1, the
digest `zeroDigest`, the encryption key `1*G`, the nonce 1 and the sample 1. -/
def zeroAdaptor : EncryptedSignature secp256k1 :=
  { R := secp256k1.G, R_a := secp256k1.G, s := 0,
    proof :=
      { z := 64856020502462622663849060043530355049810347935397460098162067354858809171624,
        s := 64856020502462622663849060043530355049810347935397460098162067354858809171625 } }

/-- On secp256k1: the adaptor `AdaptorSign` returns for the signer key 1, the
digest 1, the encryption key `0*G`, the nonce 1 and the sample 1. -/
def infinityAdaptor : EncryptedSignature secp256k1 :=
  { R := secp256k1.infinity, R_a := secp256k1.G, s := 1,
    proof :=
      { z := 38087573443992819416338077240116016725241531339218446080685822098169332621669,
        s := 38087573443992819416338077240116016725241531339218446080685822098169332621670 } }

/-- On secp256k1: an adaptor with valid points and small scalars. -/
def sampleAdaptor : EncryptedSignature secp256k1 :=
  { R := secp256k1.G, R_a := secp256k1.G, s := 1, proof := { z := 2, s := 3 } }

/-- On secp256k1: a point whose x-coordinate is the group order `n`. -/
def highPoint : Affine :=
  some (0xFFFFFFFFFFFFFFFFFFFFFFFFFFFFFFFEBAAEDCE6AF48A03BBFD25E8CD0364141,
    0x98F66641CB0AE1776B463EBDEE3D77FE2658F021DB48E2C8AC7AB4C92F83621E)

/-- On secp256k1: an adaptor whose `R` has an x-coordinate not below `n`. -/
def highAdaptor : EncryptedSignature secp256k1 :=
  { R := highPoint, R_a := secp256k1.G, s := 1, proof := { z := 2, s := 3 } }

/-- A nonce function that fails with the error `e`. -/
def failNonce (e : ExtError) : NonceFunc Unit := fun st => (.error e, st)

/-- A nonce function instrumented with a call counter. -/
def counted {σ : Type} (f : NonceFunc σ) : NonceFunc (σ × Nat) :=
  fun s => ((f s.1).1, ((f s.1).2, s.2 + 1))

/-- On secp256k1: a 162-byte input with the valid points `G`, `G`, a third
field of 32 bytes `ff` (a value above `n`) and the proof scalars 2 and 3. -/
def overflowInput : List Byte :=
  secp256k1.putBytes secp256k1.G ++ secp256k1.putBytes secp256k1.G ++ List.replicate 32 255
    ++ putB32 2 ++ putB32 3

/-- On secp256k1: a 162-byte input with the valid points `G`, `G` and the
scalars 1, 2 and 3. -/
def sampleInput : List Byte :=
  secp256k1.putBytes secp256k1.G ++ secp256k1.putBytes secp256k1.G ++ putB32 1
    ++ putB32 2 ++ putB32 3

/-- On secp256k1: the adaptor `AdaptorSign` returns for the signer key 11, the
all-zero digest, the encryption key `1*G`, the nonce 11 and the sample 1. Its
`R = 11*G` has an odd y-coordinate. -/
def oddAdaptor : EncryptedSignature secp256k1 :=
  { R := some (53957576663012291606402345341061437133522758407718089353314528343643821967563,
      98386217607324929854432842186271083758341411730506808463586570492533445740059),
    R_a := some (53957576663012291606402345341061437133522758407718089353314528343643821967563,
      98386217607324929854432842186271083758341411730506808463586570492533445740059),
    s := 53957576663012291606402345341061437133522758407718089353314528343643821967563,
    proof :=
      { z := 59312588706137362347967192272994869086171122705099935987233772271132335363239,
        s := 73478029580930008709784189959504020683694528360724773946545679274864881523945 } }

/-- On secp256k1: the signature `Decrypt` returns for `oddAdaptor` and the
decryption scalar 1. -/
def oddSignature : Signature :=
  { v := 0,
    r := 53957576663012291606402345341061437133522758407718089353314528343643821967563,
    s := 53957576663012291606402345341061437133522758407718089353314528343643821967563 }

/-! ## What the curve library is expected to satisfy -/

/-- The contract of the point library: the points on the curve form an abelian
group under `add` in which every element is killed by the odd prime `n`,
negation keeps the x-coordinate, and coordinates fit 32 bytes. -/
structure Curve.Lawful (C : Curve) : Prop where
  prime_n : Nat.Prime C.n
  two_lt_n : 2 < C.n
  p_le : C.p ≤ 2 ^ 256
  X_lt : ∀ P, C.onCurve P = true → C.X P < C.p
  on_infinity : C.onCurve C.infinity = true
  on_G : C.onCurve C.G = true
  on_add : ∀ P Q, C.onCurve P = true → C.onCurve Q = true → C.onCurve (C.add P Q) = true
  on_neg : ∀ P, C.onCurve P = true → C.onCurve (C.neg P) = true
  add_assoc : ∀ P Q R, C.onCurve P = true → C.onCurve Q = true → C.onCurve R = true →
    C.add (C.add P Q) R = C.add P (C.add Q R)
  add_comm : ∀ P Q, C.onCurve P = true → C.onCurve Q = true → C.add P Q = C.add Q P
  infinity_add : ∀ P, C.onCurve P = true → C.add C.infinity P = P
  neg_add : ∀ P, C.onCurve P = true → C.add (C.neg P) P = C.infinity
  order : ∀ P, C.onCurve P = true → C.Scale P C.n = C.infinity
  G_ne : C.G ≠ C.infinity
  X_neg : ∀ P, C.onCurve P = true → C.X (C.neg P) = C.X P

/-- The points on the curve, as a type. -/
def Curve.Lawful.V {C : Curve} (_h : C.Lawful) : Type := { P : C.Point // C.onCurve P = true }

instance Curve.Lawful.instAdd {C : Curve} (h : C.Lawful) : Add h.V :=
  ⟨fun a b => ⟨C.add a.1 b.1, h.on_add _ _ a.2 b.2⟩⟩

instance Curve.Lawful.instZero {C : Curve} (h : C.Lawful) : Zero h.V :=
  ⟨⟨C.infinity, h.on_infinity⟩⟩

instance Curve.Lawful.instNeg {C : Curve} (h : C.Lawful) : Neg h.V :=
  ⟨fun a => ⟨C.neg a.1, h.on_neg _ a.2⟩⟩

instance Curve.Lawful.instAddCommGroup {C : Curve} (h : C.Lawful) : AddCommGroup h.V where
  add_assoc a b c := Subtype.ext (h.add_assoc _ _ _ a.2 b.2 c.2)
  zero_add a := Subtype.ext (h.infinity_add _ a.2)
  add_zero a := Subtype.ext ((h.add_comm _ _ a.2 h.on_infinity).trans (h.infinity_add _ a.2))
  nsmul := nsmulRec
  zsmul := zsmulRec
  neg_add_cancel a := Subtype.ext (h.neg_add _ a.2)
  add_comm a b := Subtype.ext (h.add_comm _ _ a.2 b.2)

/-- The base point as a point on the curve. -/
def Curve.Lawful.g {C : Curve} (h : C.Lawful) : h.V := ⟨C.G, h.on_G⟩

theorem Curve.Lawful.add_val {C : Curve} (h : C.Lawful) (a b : h.V) :
    C.add a.1 b.1 = (a + b).1 := rfl

theorem Curve.Lawful.neg_val {C : Curve} (h : C.Lawful) (a : h.V) :
    C.neg a.1 = (-a).1 := rfl

theorem scaleAux_val {C : Curve} (h : C.Lawful) (fuel : Nat) :
    ∀ (b : h.V) (k : Nat) (acc : h.V), k ≤ fuel →
      scaleAux C fuel b.1 k acc.1 = (acc + k • b).1 := by
  induction fuel with
  | zero =>
    intro b k acc hk
    have : k = 0 := by omega
    subst this
    simp [scaleAux]
  | succ fuel ih =>
    intro b k acc hk
    unfold scaleAux
    by_cases hk0 : k = 0
    · subst hk0; simp
    · rw [if_neg hk0]
      have hdiv : k / 2 ≤ fuel := by omega
      have hsplit : k = 2 * (k / 2) + k % 2 := (Nat.div_add_mod k 2).symm
      by_cases hodd : k % 2 = 1
      · rw [if_pos hodd, h.add_val, h.add_val, ih (b + b) (k / 2) (acc + b) hdiv]
        congr 1
        conv_rhs => rw [hsplit, hodd]
        rw [add_smul, mul_smul, one_smul, two_smul, smul_add]
        abel
      · rw [if_neg hodd, h.add_val, ih (b + b) (k / 2) acc hdiv]
        have hev : k % 2 = 0 := by omega
        congr 1
        conv_rhs => rw [hsplit, hev]
        rw [Nat.add_zero, mul_smul, two_smul, smul_add]

theorem Curve.Lawful.Scale_nsmul {C : Curve} (h : C.Lawful) (v : h.V) (k : Nat) :
    C.Scale v.1 k = (k • v).1 := by
  have := scaleAux_val h k v k 0 le_rfl
  rw [zero_add] at this
  exact this

theorem Curve.Lawful.order_smul {C : Curve} (h : C.Lawful) (v : h.V) : C.n • v = 0 := by
  apply Subtype.ext
  rw [← h.Scale_nsmul]
  exact h.order v.1 v.2

instance Curve.Lawful.instModule {C : Curve} (h : C.Lawful) : Module (ZMod C.n) h.V :=
  AddCommGroup.zmodModule h.order_smul

/-- Scalar multiplication only depends on the scalar modulo `n`. -/
theorem Curve.Lawful.Scale_val {C : Curve} (h : C.Lawful) (v : h.V) (k : Nat) :
    C.Scale v.1 k = ((k : ZMod C.n) • v).1 := by
  rw [h.Scale_nsmul, Nat.cast_smul_eq_nsmul]

theorem Curve.Lawful.BaseExp_val {C : Curve} (h : C.Lawful) (k : Nat) :
    C.BaseExp k = ((k : ZMod C.n) • h.g).1 := h.Scale_val h.g k

theorem powModAux_cast (m fuel : Nat) :
    ∀ (b e acc : Nat), e ≤ fuel →
      ((powModAux m fuel b e acc : Nat) : ZMod m) = (acc : ZMod m) * (b : ZMod m) ^ e := by
  induction fuel with
  | zero =>
    intro b e acc he
    have : e = 0 := by omega
    subst this
    simp [powModAux]
  | succ fuel ih =>
    intro b e acc he
    unfold powModAux
    by_cases he0 : e = 0
    · subst he0; simp
    · rw [if_neg he0, ih _ _ _ (by omega)]
      have hsplit : e = 2 * (e / 2) + e % 2 := (Nat.div_add_mod e 2).symm
      by_cases hodd : e % 2 = 1
      · rw [if_pos hodd]
        conv_rhs => rw [hsplit, hodd]
        simp only [ZMod.natCast_mod, Nat.cast_mul]
        ring
      · rw [if_neg hodd]
        have hev : e % 2 = 0 := by omega
        conv_rhs => rw [hsplit, hev]
        simp only [ZMod.natCast_mod, Nat.cast_mul]
        ring

theorem powMod_cast (m b e : Nat) :
    ((powMod m b e : Nat) : ZMod m) = (b : ZMod m) ^ e := by
  unfold powMod
  rw [powModAux_cast m e _ _ _ le_rfl]
  simp [ZMod.natCast_mod]

/-- The modelled inverse is the field inverse of `ZMod n`. -/
theorem Curve.Lawful.inverse_cast {C : Curve} (h : C.Lawful) (a : Nat) :
    ((inverse C.n a : Nat) : ZMod C.n) = (a : ZMod C.n)⁻¹ := by
  haveI : Fact (Nat.Prime C.n) := ⟨h.prime_n⟩
  unfold inverse
  rw [powMod_cast]
  by_cases ha : (a : ZMod C.n) = 0
  · rw [ha, inv_zero, zero_pow]
    have := h.two_lt_n
    omega
  · have h1 : (a : ZMod C.n) ^ (C.n - 1) = 1 := ZMod.pow_card_sub_one_eq_one ha
    have h2 : C.n - 1 = (C.n - 2) + 1 := by have := h.two_lt_n; omega
    rw [h2, pow_succ] at h1
    exact eq_inv_of_mul_eq_one_left h1

/-! ## Bytes: round trips -/

theorem beToNat_append_singleton (l : List Byte) (x : Byte) :
    beToNat (l ++ [x]) = beToNat l * 256 + x.val := by
  simp [beToNat, List.foldl_append]

theorem putBE_length (k v : Nat) : (putBE k v).length = k := by
  induction k generalizing v with
  | zero => rfl
  | succ k ih => simp [putBE, ih]

theorem beToNat_putBE (k v : Nat) : beToNat (putBE k v) = v % 256 ^ k := by
  induction k generalizing v with
  | zero => simp [putBE, beToNat, Nat.mod_one]
  | succ k ih =>
    rw [putBE, beToNat_append_singleton, ih]
    have h1 : (Fin.ofNat (v % 256) : Byte).val = v % 256 := by
      simp [Fin.ofNat]
    rw [h1, pow_succ, Nat.mul_comm (256 ^ k) 256, Nat.mod_mul]
    ring

theorem putB32_length (v : Nat) : (putB32 v).length = 32 := putBE_length 32 v

theorem beToNat_putB32 (v : Nat) (hv : v < 2 ^ 256) : beToNat (putB32 v) = v := by
  unfold putB32
  rw [beToNat_putBE]
  exact Nat.mod_eq_of_lt (by norm_num at hv ⊢; exact hv)

/-- What `fpToFn` does on a field element that fits 32 bytes. -/
theorem fpToFn_eq (C : Curve) (fp : Nat) (hfp : fp < 2 ^ 256) :
    fpToFn C fp = if C.n ≤ fp then .error .panicked else .ok fp := by
  unfold fpToFn SetB32
  simp only [beToNat_putB32 fp hfp]
  by_cases hn : C.n ≤ fp
  · simp [hn]
  · simp [hn, Nat.mod_eq_of_lt (Nat.lt_of_not_le hn)]

theorem fpToFn_ok {C : Curve} {fp r : Nat} (hfp : fp < 2 ^ 256)
    (h : fpToFn C fp = .ok r) : r = fp ∧ fp < C.n := by
  rw [fpToFn_eq C fp hfp] at h
  by_cases hn : C.n ≤ fp
  · simp [hn] at h
  · simp only [hn, if_false, Except.ok.injEq] at h
    exact ⟨h.symm, Nat.lt_of_not_le hn⟩

theorem fpToFn_error {C : Curve} {fp : Nat} {f : Fault} (h : fpToFn C fp = .error f) :
    f = .panicked := by
  unfold fpToFn at h
  by_cases hov : (SetB32 C.n (putB32 fp)).2 = true
  · simp only [hov, if_true, Except.error.injEq] at h
    exact h.symm
  · simp [hov] at h

theorem Curve.Lawful.X_lt256 {C : Curve} (h : C.Lawful) (v : h.V) : C.X v.1 < 2 ^ 256 :=
  lt_of_lt_of_le (h.X_lt v.1 v.2) h.p_le

/-! ## ECDSA: what `sign` returns and what `Verify` computes -/

theorem XY_ok {C : Curve} {P : C.Point} {x : Nat} (h : C.XY P = .ok x) :
    P ≠ C.infinity ∧ x = C.X P := by
  unfold Curve.XY at h
  by_cases hP : P = C.infinity
  · simp [hP] at h
  · simp only [hP, if_false, Except.ok.injEq] at h
    exact ⟨hP, h.symm⟩

theorem XY_of_ne {C : Curve} {P : C.Point} (h : P ≠ C.infinity) : C.XY P = .ok (C.X P) := by
  simp [Curve.XY, h]

/-- A nonzero reduced scalar is nonzero in `ZMod n`. -/
theorem cast_ne_zero_of_mod {n a : Nat} (h : a % n ≠ 0) : ((a : Nat) : ZMod n) ≠ 0 := by
  intro h0
  rw [ZMod.natCast_zmod_eq_zero_iff_dvd] at h0
  exact h (Nat.mod_eq_zero_of_dvd h0)

/-- The fields of a signature returned by `sign`. -/
theorem sign_ok {C : Curve} (h : C.Lawful) {k z x : Nat} {sig : Signature}
    (hs : sign C k z x = .ok sig) :
    C.BaseExp k ≠ C.infinity ∧ sig.r = C.X (C.BaseExp k) ∧ C.X (C.BaseExp k) < C.n ∧
      sig.s = (z + sig.r * x % C.n) % C.n * inverse C.n k % C.n ∧ sig.v = 0 := by
  dsimp only [sign] at hs
  cases hxy : C.XY (C.BaseExp k) with
  | error e => rw [hxy] at hs; cases hs
  | ok r_fp =>
    obtain ⟨hne, hr⟩ := XY_ok hxy
    have hlt : C.X (C.BaseExp k) < 2 ^ 256 := by
      rw [h.BaseExp_val]; exact h.X_lt256 _
    rw [hxy] at hs
    simp only [bind, Except.bind] at hs
    cases hfp : fpToFn C r_fp with
    | error e => rw [hfp] at hs; cases hs
    | ok r =>
      rw [hfp] at hs
      simp only [pure, Except.pure, Except.ok.injEq] at hs
      subst hr
      obtain ⟨hr1, hr2⟩ := fpToFn_ok hlt hfp
      subst hr1
      subst hs
      exact ⟨hne, rfl, hr2, rfl, rfl⟩

/-- The point `Verify` reconstructs, for a key `x*G`, when the response is
nonzero: it is `K*G` for the `K` with `s = (z + r*x) / K`. -/
theorem verify_point {C : Curve} (h : C.Lawful) (x r z s : Nat) (K : ZMod C.n)
    (hs : ((s : Nat) : ZMod C.n) = ((z : ZMod C.n) + r * x) * K⁻¹)
    (hs0 : ((s : Nat) : ZMod C.n) ≠ 0) :
    C.Scale (C.add (C.Scale (C.BaseExp x) r) (C.BaseExp z)) (inverse C.n s) = (K • h.g).1 := by
  haveI : Fact (Nat.Prime C.n) := ⟨h.prime_n⟩
  rw [h.BaseExp_val x, h.Scale_val, h.BaseExp_val z, h.add_val, h.Scale_val, h.inverse_cast]
  congr 1
  rw [smul_smul, ← add_smul, smul_smul]
  congr 1
  have hzr : (z : ZMod C.n) + r * x ≠ 0 := by
    intro h0
    apply hs0
    rw [hs, h0, zero_mul]
  rw [hs, mul_inv, inv_inv]
  calc ((z : ZMod C.n) + r * x)⁻¹ * K * (r * x + z)
      = K * (((z : ZMod C.n) + r * x)⁻¹ * ((z : ZMod C.n) + r * x)) := by ring
    _ = K := by rw [inv_mul_cancel₀ hzr, mul_one]

/-! ## The 31-point curve satisfies the contract -/

theorem affPoints_mem (p a b : Nat) (P : Affine) (h : affOn p a b P = true) :
    P ∈ affPoints p a b := by
  cases P with
  | none => simp [affPoints]
  | some q =>
    obtain ⟨x, y⟩ := q
    have h2 := h
    simp only [affOn, Bool.and_eq_true, decide_eq_true_eq] at h2
    unfold affPoints
    refine List.mem_cons_of_mem _ (List.mem_map.2 ⟨(x, y), ?_, rfl⟩)
    exact List.mem_filter.2
      ⟨List.pair_mem_product.2 ⟨List.mem_range.2 h2.1.1, List.mem_range.2 h2.1.2⟩, h⟩

/-- The multiples of the base point of the 31-point curve. -/
def toyExp : Nat → Affine
  | 0 => none
  | i + 1 => affAdd 43 0 (toyExp i) (some (2, 12))

theorem toy_dlog_list : ∀ P ∈ affPoints 43 0 7, ∃ i ∈ List.range 31, P = toyExp i := by
  decide!

theorem toy_dlog (P : Affine) (h : affOn 43 0 7 P = true) : ∃ i, i < 31 ∧ P = toyExp i := by
  obtain ⟨i, hi, hP⟩ := toy_dlog_list P (affPoints_mem 43 0 7 P h)
  exact ⟨i, List.mem_range.1 hi, hP⟩

theorem toy_add_list : ∀ i ∈ List.range 31, ∀ j ∈ List.range 31,
    affAdd 43 0 (toyExp i) (toyExp j) = toyExp ((i + j) % 31) := by decide!

theorem toy_add_exp {i j : Nat} (hi : i < 31) (hj : j < 31) :
    affAdd 43 0 (toyExp i) (toyExp j) = toyExp ((i + j) % 31) :=
  toy_add_list i (List.mem_range.2 hi) j (List.mem_range.2 hj)

theorem toy_facts_list : ∀ i ∈ List.range 31,
    affOn 43 0 7 (toyExp i) = true ∧ affNeg 43 (toyExp i) = toyExp ((31 - i) % 31) ∧
      affX (toyExp i) < 43 ∧ affX (affNeg 43 (toyExp i)) = affX (toyExp i) ∧
      scaleAux toy 31 (toyExp i) 31 none = none := by decide!

theorem toy_lawful : toy.Lawful where
  prime_n := by norm_num [toy, weierstrass]
  two_lt_n := by norm_num [toy, weierstrass]
  p_le := by norm_num [toy, weierstrass]
  X_lt := by
    intro P hP
    obtain ⟨i, hi, rfl⟩ := toy_dlog P hP
    exact (toy_facts_list i (List.mem_range.2 hi)).2.2.1
  on_infinity := rfl
  on_G := by decide
  on_add := by
    intro P Q hP hQ
    obtain ⟨i, hi, rfl⟩ := toy_dlog P hP
    obtain ⟨j, hj, rfl⟩ := toy_dlog Q hQ
    show affOn 43 0 7 (affAdd 43 0 (toyExp i) (toyExp j)) = true
    rw [toy_add_exp hi hj]
    exact (toy_facts_list _ (List.mem_range.2 (Nat.mod_lt _ (by norm_num)))).1
  on_neg := by
    intro P hP
    obtain ⟨i, hi, rfl⟩ := toy_dlog P hP
    show affOn 43 0 7 (affNeg 43 (toyExp i)) = true
    rw [(toy_facts_list i (List.mem_range.2 hi)).2.1]
    exact (toy_facts_list _ (List.mem_range.2 (Nat.mod_lt _ (by norm_num)))).1
  add_assoc := by
    intro P Q R hP hQ hR
    obtain ⟨i, hi, rfl⟩ := toy_dlog P hP
    obtain ⟨j, hj, rfl⟩ := toy_dlog Q hQ
    obtain ⟨k, hk, rfl⟩ := toy_dlog R hR
    show affAdd 43 0 (affAdd 43 0 (toyExp i) (toyExp j)) (toyExp k)
      = affAdd 43 0 (toyExp i) (affAdd 43 0 (toyExp j) (toyExp k))
    rw [toy_add_exp hi hj, toy_add_exp hj hk, toy_add_exp (Nat.mod_lt _ (by norm_num)) hk,
      toy_add_exp hi (Nat.mod_lt _ (by norm_num))]
    congr 1
    omega
  add_comm := by
    intro P Q hP hQ
    obtain ⟨i, hi, rfl⟩ := toy_dlog P hP
    obtain ⟨j, hj, rfl⟩ := toy_dlog Q hQ
    show affAdd 43 0 (toyExp i) (toyExp j) = affAdd 43 0 (toyExp j) (toyExp i)
    rw [toy_add_exp hi hj, toy_add_exp hj hi, Nat.add_comm]
  infinity_add := by
    intro P _
    rfl
  neg_add := by
    intro P hP
    obtain ⟨i, hi, rfl⟩ := toy_dlog P hP
    show affAdd 43 0 (affNeg 43 (toyExp i)) (toyExp i) = none
    rw [(toy_facts_list i (List.mem_range.2 hi)).2.1,
      toy_add_exp (Nat.mod_lt _ (by norm_num)) hi]
    have : ((31 - i) % 31 + i) % 31 = 0 := by omega
    rw [this]
    rfl
  order := by
    intro P hP
    obtain ⟨i, hi, rfl⟩ := toy_dlog P hP
    exact (toy_facts_list i (List.mem_range.2 hi)).2.2.2.2
  G_ne := by decide
  X_neg := by
    intro P hP
    obtain ⟨i, hi, rfl⟩ := toy_dlog P hP
    exact (toy_facts_list i (List.mem_range.2 hi)).2.2.2.1

/-! ## The secp256k1 record -/

/-- The base point of secp256k1 is on the curve, is killed by the group order,
and doubles to the known point `2*G`. -/
theorem secp256k1_base_point :
    secp256k1.onCurve secp256k1.G = true ∧
      secp256k1.Scale secp256k1.G secp256k1.n = secp256k1.infinity ∧
      secp256k1.X (secp256k1.BaseExp 2)
        = 0xC6047F9441ED7D6D3045406E95C07CD85C778E4B8CEF3CA7ABAC09B95C709EE5 := by
  decide!

/-! ## Adaptor signatures: what `AdaptorSign` returns -/

/-- The fields of an adaptor returned by `AdaptorSign` for an encryption key
on the curve: some nonce `k` and some sample `t` produced them. -/
theorem AdaptorSign_ok {C : Curve} (h : C.Lawful) (H : DleqHash C) {σ : Type}
    (W : Nat → List Byte → C.Point → NonceFunc σ) (kp : Keypair C) (msg : List Byte)
    (Y : C.Point) (hY : C.onCurve Y = true) (opt : List (NonceFunc σ))
    (t : Except ExtError Nat) (st : σ) (a : EncryptedSignature C)
    (ha : (AdaptorSign C H W kp msg Y opt t st).1 = .ok a) :
    ∃ k tt, beToNat (msg.take 32) < C.n ∧ a.R_a = C.BaseExp k ∧ a.R = C.Scale Y k ∧
      C.X a.R < C.n ∧
      a.s = ((C.X a.R * kp.privateKey % C.n) + beToNat (msg.take 32) % C.n) % C.n
        * inverse C.n k % C.n ∧
      a.proof = { z := H C.G Y a.R_a a.R (C.BaseExp tt) (C.Scale Y tt) % C.n,
                  s := (tt + H C.G Y a.R_a a.R (C.BaseExp tt) (C.Scale Y tt) % C.n * k % C.n)
                    % C.n } := by
  simp only [AdaptorSign, SetByteSlice] at ha
  split at ha
  · cases ha
  · rename_i hov
    split at ha
    · cases ha
    · rename_i k st1 hk
      have hlt : C.X (C.Scale Y k) < 2 ^ 256 := by
        rw [h.Scale_val ⟨Y, hY⟩]; exact h.X_lt256 _
      split at ha
      · cases ha
      · rename_i r hr
        obtain ⟨hr1, hr2⟩ := fpToFn_ok hlt hr
        subst hr1
        cases t with
        | error e => simp [dleqProve] at ha
        | ok tt =>
          simp only [dleqProve, Except.ok.injEq] at ha
          subst ha
          refine ⟨k, tt, ?_, rfl, rfl, hr2, rfl, rfl⟩
          simpa using hov

theorem Curve.Lawful.smul_g_eq_zero {C : Curve} (h : C.Lawful) {K : ZMod C.n}
    (hK : K • h.g = 0) : K = 0 := by
  haveI : Fact (Nat.Prime C.n) := ⟨h.prime_n⟩
  by_contra hne
  apply h.G_ne
  have hg : h.g = 0 := by
    have := congrArg (fun v => K⁻¹ • v) hK
    simpa [smul_smul, inv_mul_cancel₀ hne] using this
  exact congrArg Subtype.val hg

theorem Curve.Lawful.X_neg_val {C : Curve} (h : C.Lawful) (v : h.V) :
    C.X (-v).1 = C.X v.1 := h.X_neg v.1 v.2

/-- `Verify` accepts `(r, s)` under the key `x*G` as soon as `s` is nonzero,
`s = (z + r*x) / K` and `r` is the x-coordinate of `K*G`, below `n`. -/
theorem verify_accepts {C : Curve} (h : C.Lawful) (x : Nat) (msg : List Byte)
    (hm : msg.length = 32) (sig : Signature) (K : ZMod C.n)
    (hs : ((sig.s : Nat) : ZMod C.n)
      = (((beToNat msg : Nat) : ZMod C.n) + (sig.r : ZMod C.n) * x) * K⁻¹)
    (hs0 : ((sig.s : Nat) : ZMod C.n) ≠ 0)
    (hr : C.X (K • h.g).1 = sig.r) (hlt : sig.r < C.n) :
    Verify C (C.BaseExp x) msg sig = .ok true := by
  haveI : Fact (Nat.Prime C.n) := ⟨h.prime_n⟩
  have hs2 : ((sig.s : Nat) : ZMod C.n)
      = ((((SetB32 C.n msg).1 : Nat) : ZMod C.n) + (sig.r : ZMod C.n) * x) * K⁻¹ := by
    rw [hs]; simp [SetB32, ZMod.natCast_mod]
  have hpt := verify_point h x sig.r (SetB32 C.n msg).1 sig.s K hs2 hs0
  have hK : K ≠ 0 := by
    intro h0
    apply hs0
    rw [hs, h0, inv_zero, mul_zero]
  have hne : (K • h.g).1 ≠ C.infinity := by
    intro h0
    exact hK (h.smul_g_eq_zero (Subtype.ext h0))
  unfold Verify
  simp only [MessageLength, hm, ne_eq, not_true_eq_false, if_false]
  rw [hpt, XY_of_ne hne]
  simp only [bind, Except.bind]
  rw [fpToFn_eq C _ (h.X_lt256 _), hr, if_neg (Nat.not_le.2 hlt)]
  simp [pure, Except.pure]

theorem Negate_cast (n s : Nat) (hpos : 0 < n) :
    ((Negate n s : Nat) : ZMod n) = -(s : ZMod n) := by
  unfold Negate
  rw [ZMod.natCast_mod, Nat.cast_sub (Nat.mod_lt s hpos).le, ZMod.natCast_mod]
  simp

/-- The signature `Decrypt` returns. -/
theorem Decrypt_eq (C : Curve) (a : EncryptedSignature C) (sk : Nat) :
    Decrypt C a sk = .ok
      { v := 0, r := C.X a.R,
        s := if C.n / 2 < a.s * inverse C.n sk % C.n
          then Negate C.n (a.s * inverse C.n sk % C.n) else a.s * inverse C.n sk % C.n } := by
  simp [Decrypt, IsOverHalfOrder]

/-- In `ZMod n` the response returned by `Decrypt` is `± a.s / y`. -/
theorem Decrypt_cast {C : Curve} (h : C.Lawful) (a : EncryptedSignature C) (sk : Nat)
    (sig : Signature) (hd : Decrypt C a sk = .ok sig) :
    sig.r = C.X a.R ∧
      (((sig.s : Nat) : ZMod C.n) = (a.s : ZMod C.n) * (sk : ZMod C.n)⁻¹ ∨
       ((sig.s : Nat) : ZMod C.n) = -((a.s : ZMod C.n) * (sk : ZMod C.n)⁻¹)) := by
  rw [Decrypt_eq] at hd
  simp only [Except.ok.injEq] at hd
  subst hd
  refine ⟨rfl, ?_⟩
  by_cases hhalf : C.n / 2 < a.s * inverse C.n sk % C.n
  · right
    simp only [hhalf, if_true]
    rw [Negate_cast _ _ h.prime_n.pos, ZMod.natCast_mod, Nat.cast_mul, h.inverse_cast]
  · left
    simp only [hhalf, if_false]
    rw [ZMod.natCast_mod, Nat.cast_mul, h.inverse_cast]

/-! ## ECDSA correctness -/

/-- A signature returned by `sign` with a nonzero response verifies under the
key `x*G`. -/
theorem sign_then_verify {C : Curve} (h : C.Lawful) (x k : Nat) (msg : List Byte)
    (hm : msg.length = 32) (sig : Signature)
    (hsig : sign C k (SetB32 C.n msg).1 x = .ok sig) (hs0 : sig.s ≠ 0) :
    Verify C (C.BaseExp x) msg sig = .ok true := by
  obtain ⟨hne, hr, hlt, hs, _⟩ := sign_ok h hsig
  have hscast : ((sig.s : Nat) : ZMod C.n)
      = (((SetB32 C.n msg).1 : Nat) + (sig.r : ZMod C.n) * x) * (k : ZMod C.n)⁻¹ := by
    conv_lhs => rw [hs]
    simp only [ZMod.natCast_mod, Nat.cast_mul, Nat.cast_add, h.inverse_cast]
  have hs0c : ((sig.s : Nat) : ZMod C.n) ≠ 0 := by
    apply cast_ne_zero_of_mod
    have : sig.s % C.n = sig.s := by
      rw [hs]; exact Nat.mod_mod _ _
    rw [this]; exact hs0
  have hpt := verify_point h x sig.r (SetB32 C.n msg).1 sig.s k hscast hs0c
  rw [← h.BaseExp_val] at hpt
  have hlt256 : C.X (C.BaseExp k) < 2 ^ 256 := by
    rw [h.BaseExp_val]; exact h.X_lt256 _
  unfold Verify
  simp only [MessageLength, hm, ne_eq, not_true_eq_false, if_false]
  rw [hpt, XY_of_ne hne]
  simp only [bind, Except.bind]
  rw [fpToFn_eq C _ hlt256, if_neg (Nat.not_le.2 hlt)]
  simp [pure, Except.pure, hr]

/-- C1, as amended: on a lawful curve, for every private scalar `x`, every
32-byte digest `m` and every draw of the nonce, whenever `Sign` returns a
signature whose response `s` is nonzero, `Verify` called on the public key
`x*G` with `m` and that signature returns `(true, nil)`. -/
theorem ecdsa_correct (C : Curve) (h : C.Lawful) (x : Nat) (msg : List Byte)
    (hm : msg.length = 32) (rs : RandSource) (sig : Signature)
    (hsig : (Sign C (GenerateKeypair C x) msg rs).1 = .ok sig) (hs0 : sig.s ≠ 0) :
    goPair (Verify C (GenerateKeypair C x).publicKey msg sig) = some (true, none) := by
  unfold Sign at hsig
  simp only [MessageLength, hm, ne_eq, not_true_eq_false, if_false] at hsig
  unfold RandomFnNoPanic at hsig
  cases hout : rs.out rs.pos with
  | error e => rw [hout] at hsig; simp [Except.map] at hsig
  | ok k =>
    rw [hout] at hsig
    simp only [Except.map, GenerateKeypair] at hsig
    simp only [GenerateKeypair]
    rw [sign_then_verify h x (k % C.n) msg hm sig hsig hs0]
    rfl

/-- Witness for C1 on the 31-point curve: key 3, digest 5, nonce 4. -/
theorem ecdsa_correct_witness :
    (Sign toy (GenerateKeypair toy 3) (putB32 5) (constSource 4)).1
        = .ok { v := 0, r := 21, s := 17 } ∧
      goPair (Verify toy (GenerateKeypair toy 3).publicKey (putB32 5) { v := 0, r := 21, s := 17 })
        = some (true, none) :=
  ⟨by decide!, ecdsa_correct toy toy_lawful 3 (putB32 5) (by decide) (constSource 4)
    { v := 0, r := 21, s := 17 } (by decide!) (by decide)⟩

/-- C1 as stated fails on secp256k1: with private key 1, nonce 1 and the
digest `n - G.x`, `Sign` returns the signature `(G.x, 0)` and `Verify` on the
public key `1*G` returns `(false, err)`, the reconstructed point being the
point at infinity. -/
theorem ecdsa_zero_response_rejected :
    (Sign secp256k1 (GenerateKeypair secp256k1 1)
        zeroDigest (constSource 1)).1
        = .ok { v := 0, r := secp256k1.X secp256k1.G, s := 0 } ∧
      goPair (Verify secp256k1 (GenerateKeypair secp256k1 1).publicKey zeroDigest
        { v := 0, r := secp256k1.X secp256k1.G, s := 0 })
        = some (false, some (.external .pointAtInfinity)) := by
  decide!

/-! ## Adaptor signatures: completion, recovery, soundness -/

/-- A scalar below `n` that is not zero is not zero in `ZMod n`. -/
theorem cast_ne_zero_of_lt {n a : Nat} (hlt : a < n) (h0 : a ≠ 0) : ((a : Nat) : ZMod n) ≠ 0 := by
  apply cast_ne_zero_of_mod
  rw [Nat.mod_eq_of_lt hlt]
  exact h0

/-- The algebra of an adaptor returned by `AdaptorSign` for the signer key `x`
and the encryption key `y*G`. -/
theorem AdaptorSign_algebra {C : Curve} (h : C.Lawful) (H : DleqHash C) {σ : Type}
    (W : Nat → List Byte → C.Point → NonceFunc σ) (x y : Nat) (msg : List Byte)
    (opt : List (NonceFunc σ)) (t : Except ExtError Nat) (st : σ) (a : EncryptedSignature C)
    (ha : (AdaptorSign C H W (GenerateKeypair C x) msg (C.BaseExp y) opt t st).1 = .ok a) :
    ∃ k : Nat, a.R_a = (((k : Nat) : ZMod C.n) • h.g).1 ∧
      a.R = ((((k : Nat) : ZMod C.n) * (y : ZMod C.n)) • h.g).1 ∧ C.X a.R < C.n ∧
      a.s < C.n ∧
      ((a.s : Nat) : ZMod C.n) = (((beToNat (msg.take 32) : Nat) : ZMod C.n)
        + ((C.X a.R : Nat) : ZMod C.n) * x) * (k : ZMod C.n)⁻¹ := by
  have hY : C.onCurve (C.BaseExp y) = true := by
    rw [h.BaseExp_val]; exact (((y : Nat) : ZMod C.n) • h.g).2
  obtain ⟨k, tt, _, hRa, hR, hX, hs, _⟩ := AdaptorSign_ok h H W _ msg _ hY opt t st a ha
  refine ⟨k, ?_, ?_, hX, ?_, ?_⟩
  · rw [hRa, h.BaseExp_val]
  · rw [hR, h.BaseExp_val, h.Scale_val, smul_smul]
  · rw [hs]; exact Nat.mod_lt _ h.prime_n.pos
  · conv_lhs => rw [hs]
    simp only [GenerateKeypair, ZMod.natCast_mod, Nat.cast_mul, Nat.cast_add, h.inverse_cast]
    ring

/-- C2, as amended: on a lawful curve, for every signer scalar `x`, 32-byte
digest `m`, decryption scalar `y` that is nonzero modulo `n`, with `Y = y*G`,
and every nonce function, if `AdaptorSign(x, m, Y)` returns an adaptor `a`
whose response `a.s` is nonzero, then `a.Decrypt(y)` returns a signature and
`Verify` under `x*G` and the same `m` returns `(true, nil)` on it. -/
theorem adaptor_completion (C : Curve) (h : C.Lawful) (H : DleqHash C) {σ : Type}
    (W : Nat → List Byte → C.Point → NonceFunc σ) (x y : Nat) (msg : List Byte)
    (hm : msg.length = 32) (opt : List (NonceFunc σ)) (t : Except ExtError Nat) (st : σ)
    (a : EncryptedSignature C)
    (ha : (AdaptorSign C H W (GenerateKeypair C x) msg (C.BaseExp y) opt t st).1 = .ok a)
    (hs0 : a.s ≠ 0) (hy : y % C.n ≠ 0) :
    ∃ sig, Decrypt C a y = .ok sig ∧
      goPair (Verify C (GenerateKeypair C x).publicKey msg sig) = some (true, none) := by
  haveI : Fact (Nat.Prime C.n) := ⟨h.prime_n⟩
  obtain ⟨k, _, hR, hX, hslt, hs⟩ := AdaptorSign_algebra h H W x y msg opt t st a ha
  rw [List.take_of_length_le (le_of_eq hm)] at hs
  have hsc : ((a.s : Nat) : ZMod C.n) ≠ 0 := cast_ne_zero_of_lt hslt hs0
  have hyc : ((y : Nat) : ZMod C.n) ≠ 0 := cast_ne_zero_of_mod hy
  obtain ⟨sig, hd⟩ : ∃ sig, Decrypt C a y = .ok sig := ⟨_, Decrypt_eq C a y⟩
  obtain ⟨hr, hcases⟩ := Decrypt_cast h a y sig hd
  refine ⟨sig, hd, ?_⟩
  have hprod : (a.s : ZMod C.n) * (y : ZMod C.n)⁻¹ ≠ 0 :=
    mul_ne_zero hsc (inv_ne_zero hyc)
  have hver : Verify C (C.BaseExp x) msg sig = .ok true := by
    rcases hcases with hc | hc
    · apply verify_accepts h x msg hm sig ((k : ZMod C.n) * y)
      · rw [hc, hs, hr, mul_inv]; ring
      · rw [hc]; exact hprod
      · rw [← hR, hr]
      · rw [hr]; exact hX
    · apply verify_accepts h x msg hm sig (-((k : ZMod C.n) * y))
      · rw [hc, hs, hr, inv_neg, mul_inv]; ring
      · rw [hc]; exact neg_ne_zero.2 hprod
      · rw [neg_smul, h.X_neg_val, ← hR, hr]
      · rw [hr]; exact hX
  simp only [GenerateKeypair]
  rw [hver]
  rfl

/-- Witness for C2 on the 31-point curve: signer key 3, digest 5, decryption
scalar 2, nonce 2. -/
theorem adaptor_completion_witness :
    ∃ sig, Decrypt toy toyAdaptor 2 = .ok sig ∧
      goPair (Verify toy (GenerateKeypair toy 3).publicKey (putB32 5) sig)
        = some (true, none) :=
  adaptor_completion toy toy_lawful affHash (fun _ _ _ => constNonce 7) 3 2 (putB32 5)
    (by decide) [constNonce 2] (.ok 6) () toyAdaptor (by decide!) (by decide) (by decide)

/-- C2 as stated fails on secp256k1. First input: signer key 1, digest
`n - G.x`, decryption scalar 1, nonce 1; `AdaptorSign` returns an adaptor with
`s = 0`, `Decrypt` returns `(G.x, 0)` and `Verify` returns `(false, err)`.
Second input: signer key 1, digest 1, decryption scalar 0 (so `Y` is the point
at infinity), nonce 1; `AdaptorSign` returns an adaptor with `s = 1`, `Decrypt`
returns `(0, 0)` and `Verify` returns `(false, err)`. -/
theorem adaptor_completion_fails :
    ((AdaptorSign secp256k1 affHash (fun _ _ _ => constNonce 7) (GenerateKeypair secp256k1 1)
        zeroDigest (secp256k1.BaseExp 1) [constNonce 1] (.ok 1) ()).1 = .ok zeroAdaptor ∧
      Decrypt secp256k1 zeroAdaptor 1 = .ok { v := 0, r := secp256k1.X secp256k1.G, s := 0 } ∧
      goPair (Verify secp256k1 (GenerateKeypair secp256k1 1).publicKey zeroDigest
        { v := 0, r := secp256k1.X secp256k1.G, s := 0 })
        = some (false, some (.external .pointAtInfinity))) ∧
    ((AdaptorSign secp256k1 affHash (fun _ _ _ => constNonce 7) (GenerateKeypair secp256k1 1)
        (putB32 1) (secp256k1.BaseExp 0) [constNonce 1] (.ok 1) ()).1 = .ok infinityAdaptor ∧
      Decrypt secp256k1 infinityAdaptor 0 = .ok { v := 0, r := 0, s := 0 } ∧
      goPair (Verify secp256k1 (GenerateKeypair secp256k1 1).publicKey (putB32 1)
        { v := 0, r := 0, s := 0 })
        = some (false, some (.external .pointAtInfinity))) := by
  decide!

/-- C3, as amended: on a lawful curve, for every adaptor `a` returned by
`AdaptorSign` against the encryption key `Y = y*G` with `y` nonzero modulo `n`
and with a nonzero response `a.s`, `RecoverFromAdaptorAndSignature(a, Y,
a.Decrypt(y))` succeeds and returns a scalar `y'` with `y'*G = Y`, whether or
not `Decrypt` negated `s`. -/
theorem adaptor_recoverable (C : Curve) (h : C.Lawful) (H : DleqHash C) {σ : Type}
    (W : Nat → List Byte → C.Point → NonceFunc σ) (x y : Nat) (msg : List Byte)
    (opt : List (NonceFunc σ)) (t : Except ExtError Nat) (st : σ)
    (a : EncryptedSignature C)
    (ha : (AdaptorSign C H W (GenerateKeypair C x) msg (C.BaseExp y) opt t st).1 = .ok a)
    (hs0 : a.s ≠ 0) (hy : y % C.n ≠ 0) :
    ∃ sig y', Decrypt C a y = .ok sig ∧
      RecoverFromAdaptorAndSignature C a (C.BaseExp y) sig = .ok y' ∧
      C.BaseExp y' = C.BaseExp y := by
  haveI : Fact (Nat.Prime C.n) := ⟨h.prime_n⟩
  obtain ⟨k, _, hR, _, hslt, hs⟩ := AdaptorSign_algebra h H W x y msg opt t st a ha
  have hsc : ((a.s : Nat) : ZMod C.n) ≠ 0 := cast_ne_zero_of_lt hslt hs0
  have hyc : ((y : Nat) : ZMod C.n) ≠ 0 := cast_ne_zero_of_mod hy
  have hkc : ((k : Nat) : ZMod C.n) ≠ 0 := by
    intro h0
    apply hsc
    rw [hs, h0, inv_zero, mul_zero]
  have hRne : a.R ≠ C.infinity := by
    intro h0
    rw [hR] at h0
    exact mul_ne_zero hkc hyc (h.smul_g_eq_zero (Subtype.ext h0))
  obtain ⟨sig, hd⟩ : ∃ sig, Decrypt C a y = .ok sig := ⟨_, Decrypt_eq C a y⟩
  obtain ⟨hr, hcases⟩ := Decrypt_cast h a y sig hd
  have hy' : ((inverse C.n sig.s * a.s % C.n : Nat) : ZMod C.n) = y ∨
      ((inverse C.n sig.s * a.s % C.n : Nat) : ZMod C.n) = -(y : ZMod C.n) := by
    rw [ZMod.natCast_mod, Nat.cast_mul, h.inverse_cast]
    rcases hcases with hc | hc
    · left
      rw [hc, mul_inv, inv_inv, mul_comm _ (y : ZMod C.n), mul_assoc,
        inv_mul_cancel₀ hsc, mul_one]
    · right
      rw [hc, inv_neg, mul_inv, inv_inv, neg_mul, mul_comm _ (y : ZMod C.n), mul_assoc,
        inv_mul_cancel₀ hsc, mul_one]
  have hrec : ∃ y', RecoverFromAdaptorAndSignature C a (C.BaseExp y) sig = .ok y' ∧
      C.BaseExp y' = C.BaseExp y := by
    unfold RecoverFromAdaptorAndSignature
    rw [XY_of_ne hRne]
    simp only [bind, Except.bind, ne_eq]
    rw [if_neg (not_not.2 hr.symm)]
    by_cases h1 : C.BaseExp y = C.BaseExp (inverse C.n sig.s * a.s % C.n)
    · exact ⟨_, by rw [if_pos h1]; rfl, h1.symm⟩
    · have h2 : C.BaseExp y = C.neg (C.BaseExp (inverse C.n sig.s * a.s % C.n)) := by
        rcases hy' with hc | hc
        · exact absurd (by rw [h.BaseExp_val, h.BaseExp_val, hc]) h1
        · rw [h.BaseExp_val, h.BaseExp_val, hc, h.neg_val, neg_smul, neg_neg]
      refine ⟨_, by rw [if_neg h1, if_pos h2]; rfl, ?_⟩
      rw [h2, h.BaseExp_val, h.BaseExp_val, Negate_cast _ _ h.prime_n.pos, neg_smul, h.neg_val]
  obtain ⟨y', hy1, hy2⟩ := hrec
  exact ⟨sig, y', hd, hy1, hy2⟩

/-- Witness for C3 on the 31-point curve: signer key 3, digest 5, decryption
scalar 2, nonce 2. -/
theorem adaptor_recoverable_witness :
    ∃ sig y', Decrypt toy toyAdaptor 2 = .ok sig ∧
      RecoverFromAdaptorAndSignature toy toyAdaptor (toy.BaseExp 2) sig = .ok y' ∧
      toy.BaseExp y' = toy.BaseExp 2 :=
  adaptor_recoverable toy toy_lawful affHash (fun _ _ _ => constNonce 7) 3 2 (putB32 5)
    [constNonce 2] (.ok 6) () toyAdaptor (by decide!) (by decide) (by decide)

/-- C3 as stated fails on secp256k1. First input: the adaptor with `s = 0`
returned for signer key 1, digest `n - G.x`, encryption key `1*G`, nonce 1:
recovery from its decryption fails with the y-check error. Second input: the
adaptor returned for the encryption key `0*G`: recovery from its decryption
fails with the error of `XY` on the point at infinity. -/
theorem adaptor_recovery_fails :
    ((AdaptorSign secp256k1 affHash (fun _ _ _ => constNonce 7) (GenerateKeypair secp256k1 1)
        zeroDigest (secp256k1.BaseExp 1) [constNonce 1] (.ok 1) ()).1 = .ok zeroAdaptor ∧
      Decrypt secp256k1 zeroAdaptor 1 = .ok { v := 0, r := secp256k1.X secp256k1.G, s := 0 } ∧
      RecoverFromAdaptorAndSignature secp256k1 zeroAdaptor (secp256k1.BaseExp 1)
        { v := 0, r := secp256k1.X secp256k1.G, s := 0 } = .error (.err .yCheckFailed)) ∧
    ((AdaptorSign secp256k1 affHash (fun _ _ _ => constNonce 7) (GenerateKeypair secp256k1 1)
        (putB32 1) (secp256k1.BaseExp 0) [constNonce 1] (.ok 1) ()).1 = .ok infinityAdaptor ∧
      Decrypt secp256k1 infinityAdaptor 0 = .ok { v := 0, r := 0, s := 0 } ∧
      RecoverFromAdaptorAndSignature secp256k1 infinityAdaptor (secp256k1.BaseExp 0)
        { v := 0, r := 0, s := 0 } = .error (.err (.external .pointAtInfinity))) := by
  decide!

/-- Completeness of the modelled DLEQ proof: what `dleqProve` builds for the
pair `(k*G, k*Y)` is accepted by `dleqVerify`. -/
theorem dleq_complete {C : Curve} (h : C.Lawful) (H : DleqHash C) (Y : C.Point)
    (hY : C.onCurve Y = true) (k tt : Nat) :
    dleqVerify C H Y
      { z := H C.G Y (C.BaseExp k) (C.Scale Y k) (C.BaseExp tt) (C.Scale Y tt) % C.n,
        s := (tt + H C.G Y (C.BaseExp k) (C.Scale Y k) (C.BaseExp tt) (C.Scale Y tt) % C.n
          * k % C.n) % C.n }
      (C.BaseExp k) (C.Scale Y k) = true := by
  have hA : ∀ c : Nat, C.add (C.BaseExp ((tt + c * k % C.n) % C.n))
      (C.neg (C.Scale (C.BaseExp k) c)) = C.BaseExp tt := by
    intro c
    rw [h.BaseExp_val, h.BaseExp_val k, h.Scale_val, h.neg_val, h.add_val, h.BaseExp_val tt]
    congr 1
    simp only [ZMod.natCast_mod, Nat.cast_add, Nat.cast_mul, add_smul, mul_smul]
    abel
  have hB : ∀ c : Nat, C.add (C.Scale Y ((tt + c * k % C.n) % C.n))
      (C.neg (C.Scale (C.Scale Y k) c)) = C.Scale Y tt := by
    intro c
    rw [h.Scale_val ⟨Y, hY⟩, h.Scale_val ⟨Y, hY⟩ k, h.Scale_val, h.neg_val, h.add_val,
      h.Scale_val ⟨Y, hY⟩ tt]
    congr 1
    simp only [ZMod.natCast_mod, Nat.cast_add, Nat.cast_mul, add_smul, mul_smul]
    abel
  unfold dleqVerify
  simp only [hA, hB, decide_eq_true_eq]

/-- C4, as amended: on a lawful curve, for every signer keypair `(x, x*G)`,
every encryption key `Y` on the curve and every digest `m`, if `AdaptorSign(x,
m, Y)` returns an adaptor `a` whose response `a.s` is nonzero (or whose `R_a`
is the point at infinity), then `VerifyAdaptor(x*G, m, Y, a)` returns `(true,
nil)`: the point check `R_a == (z*G + r*P) * s^-1` passes and the DLEQ proof
verifies. -/
theorem adaptor_sound (C : Curve) (h : C.Lawful) (H : DleqHash C) {σ : Type}
    (W : Nat → List Byte → C.Point → NonceFunc σ) (x : Nat) (msg : List Byte)
    (Y : C.Point) (hY : C.onCurve Y = true)
    (opt : List (NonceFunc σ)) (t : Except ExtError Nat) (st : σ)
    (a : EncryptedSignature C)
    (ha : (AdaptorSign C H W (GenerateKeypair C x) msg Y opt t st).1 = .ok a)
    (hs0 : a.s ≠ 0 ∨ a.R_a = C.infinity) :
    goPair (VerifyAdaptor C H (GenerateKeypair C x).publicKey msg Y a) = some (true, none) ∧
      C.Scale (C.add (C.BaseExp (SetByteSlice C.n msg).1)
        (C.Scale (C.BaseExp x) (C.X a.R))) (inverse C.n a.s) = a.R_a ∧
      dleqVerify C H Y a.proof a.R_a a.R = true := by
  haveI : Fact (Nat.Prime C.n) := ⟨h.prime_n⟩
  obtain ⟨k, tt, hz, hRa, hR, hX, hs, hproof⟩ :=
    AdaptorSign_ok h H W _ msg _ hY opt t st a ha
  have hslt : a.s < C.n := by rw [hs]; exact Nat.mod_lt _ h.prime_n.pos
  have hscast : ((a.s : Nat) : ZMod C.n) = (((beToNat (msg.take 32) : Nat) : ZMod C.n)
      + ((C.X a.R : Nat) : ZMod C.n) * x) * (k : ZMod C.n)⁻¹ := by
    conv_lhs => rw [hs]
    simp only [GenerateKeypair, ZMod.natCast_mod, Nat.cast_mul, Nat.cast_add, h.inverse_cast]
    ring
  have hpoint : C.Scale (C.add (C.BaseExp (SetByteSlice C.n msg).1)
      (C.Scale (C.BaseExp x) (C.X a.R))) (inverse C.n a.s) = a.R_a := by
    rw [hRa, h.BaseExp_val, h.BaseExp_val x, h.Scale_val, h.add_val, h.Scale_val,
      h.BaseExp_val k, h.inverse_cast]
    congr 1
    rw [smul_smul, ← add_smul, smul_smul]
    congr 1
    simp only [SetByteSlice, ZMod.natCast_mod]
    rcases hs0 with hne | hinf
    · have hsc : ((a.s : Nat) : ZMod C.n) ≠ 0 := cast_ne_zero_of_lt hslt hne
      have hzr : ((beToNat (msg.take 32) : Nat) : ZMod C.n) + (C.X a.R : ZMod C.n) * x ≠ 0 := by
        intro h0
        apply hsc
        rw [hscast, h0, zero_mul]
      rw [hscast, mul_inv, inv_inv]
      calc (((beToNat (msg.take 32) : Nat) : ZMod C.n) + (C.X a.R : ZMod C.n) * x)⁻¹ * k
            * ((beToNat (msg.take 32) : Nat) + (C.X a.R : ZMod C.n) * x)
          = k * ((((beToNat (msg.take 32) : Nat) : ZMod C.n) + (C.X a.R : ZMod C.n) * x)⁻¹
            * (((beToNat (msg.take 32) : Nat) : ZMod C.n) + (C.X a.R : ZMod C.n) * x)) := by
            ring
        _ = k := by rw [inv_mul_cancel₀ hzr, mul_one]
    · have hk0 : ((k : Nat) : ZMod C.n) = 0 := by
        apply h.smul_g_eq_zero
        apply Subtype.ext
        rw [← h.BaseExp_val, ← hRa, hinf]
        rfl
      rw [hscast, hk0, inv_zero, mul_zero, inv_zero, zero_mul]
  have hdleq : dleqVerify C H Y a.proof a.R_a a.R = true := by
    rw [hproof, hRa, hR]
    exact dleq_complete h H Y hY k tt
  refine ⟨?_, hpoint, hdleq⟩
  have hlt256 : C.X a.R < 2 ^ 256 := by
    rw [hR, h.Scale_val ⟨Y, hY⟩]; exact h.X_lt256 _
  have hov : decide (C.n ≤ beToNat (msg.take 32)) = false := by
    simpa using hz
  simp only [VerifyAdaptor, SetByteSlice, hov, GenerateKeypair]
  simp only [SetByteSlice] at hpoint
  rw [fpToFn_eq C _ hlt256, if_neg (Nat.not_le.2 hX)]
  simp only [bind, Except.bind, hpoint, hdleq]
  simp [goPair, pure, Except.pure]

/-- Witness for C4 on the 31-point curve: signer key 3, digest 5, encryption
key `2*G`, nonce 2. -/
theorem adaptor_sound_witness :
    goPair (VerifyAdaptor toy affHash (GenerateKeypair toy 3).publicKey (putB32 5)
        (toy.BaseExp 2) toyAdaptor) = some (true, none) ∧
      toy.Scale (toy.add (toy.BaseExp (SetByteSlice toy.n (putB32 5)).1)
        (toy.Scale (toy.BaseExp 3) (toy.X toyAdaptor.R))) (inverse toy.n toyAdaptor.s)
        = toyAdaptor.R_a ∧
      dleqVerify toy affHash (toy.BaseExp 2) toyAdaptor.proof toyAdaptor.R_a toyAdaptor.R
        = true :=
  adaptor_sound toy toy_lawful affHash (fun _ _ _ => constNonce 7) 3 (putB32 5)
    (toy.BaseExp 2) (by decide) [constNonce 2] (.ok 6) () toyAdaptor (by decide!)
    (Or.inl (by decide))

/-- C4 as stated fails on secp256k1: for the signer key 1, the digest
`n - G.x`, the encryption key `1*G` and the nonce 1, `AdaptorSign` returns an
adaptor with `s = 0` and `VerifyAdaptor` returns `(false, nil)` on it. -/
theorem adaptor_zero_response_rejected :
    (AdaptorSign secp256k1 affHash (fun _ _ _ => constNonce 7) (GenerateKeypair secp256k1 1)
        zeroDigest (secp256k1.BaseExp 1) [constNonce 1] (.ok 1) ()).1 = .ok zeroAdaptor ∧
      goPair (VerifyAdaptor secp256k1 affHash (GenerateKeypair secp256k1 1).publicKey
        zeroDigest (secp256k1.BaseExp 1) zeroAdaptor) = some (false, none) := by
  decide!

/-! ## The wire form of an encrypted signature -/

theorem copyAt_length (dst src : List Byte) (lo hi : Nat) (h1 : lo ≤ hi)
    (h2 : hi ≤ dst.length) : (copyAt dst lo hi src).length = dst.length := by
  simp only [copyAt, List.length_append, List.length_take, List.length_drop]
  omega

theorem copyAt_exact (pre mid post src : List Byte) (lo hi : Nat) (hlo : lo = pre.length)
    (hhi : hi = lo + mid.length) (hsrc : src.length = mid.length) :
    copyAt (pre ++ mid ++ post) lo hi src = pre ++ src ++ post := by
  subst hlo
  subst hhi
  have h1 : List.take pre.length (pre ++ mid ++ post) = pre := by
    rw [List.append_assoc]; exact List.take_left' rfl
  have h2 : List.take (pre.length + mid.length) (pre ++ mid ++ post) = pre ++ mid :=
    List.take_left' (by simp)
  have h3 : List.drop (pre.length + mid.length) (pre ++ mid ++ post) = post :=
    List.drop_left' (by simp)
  have h4 : List.drop (pre.length + src.length) (pre ++ mid) = [] := by
    apply List.drop_eq_nil_of_le
    simp [hsrc]
  unfold copyAt
  rw [h1, h2, h3, h4, List.append_nil]
  have h5 : pre.length + mid.length - pre.length = src.length := by omega
  rw [h5, List.take_length]

/-- The bytes `Encode` returns always fill the array of `encodedAdaptorSize`
bytes. -/
theorem Encode_length (C : Curve) (a : EncryptedSignature C) :
    ∃ bs, (Encode C a).1 = .ok bs ∧ bs.length = 162 := by
  refine ⟨_, rfl, ?_⟩
  have l0 : (List.replicate encodedAdaptorSize (0 : Byte)).length = 162 := by
    simp [encodedAdaptorSize]
  have l1 := (copyAt_length _ (C.putBytes a.R) 0 33 (by decide) (by rw [l0]; decide)).trans l0
  have l2 := (copyAt_length _ (C.putBytes a.R_a) 33 66 (by decide) (by rw [l1]; decide)).trans l1
  have l3 := (copyAt_length _ (putB32 a.proof.z) 98 (98 + 32) (by decide)
    (by rw [l2]; decide)).trans l2
  exact (copyAt_length _ (putB32 a.proof.s) (98 + 32) encodedAdaptorSize (by decide)
    (by rw [l3]; decide)).trans l3

/-- With point encodings of 33 bytes, what `Encode` returns and how it leaves
the receiver: the third field is 32 zero bytes and the receiver's `s` is
overwritten with zero. -/
theorem Encode_eq (C : Curve) (a : EncryptedSignature C)
    (hR : (C.putBytes a.R).length = 33) (hRa : (C.putBytes a.R_a).length = 33) :
    Encode C a =
      (.ok (C.putBytes a.R ++ C.putBytes a.R_a ++ List.replicate 32 0 ++ putB32 a.proof.z
          ++ putB32 a.proof.s),
        { a with s := 0 }) := by
  have hz : List.replicate encodedAdaptorSize (0 : Byte)
      = [] ++ List.replicate 33 0 ++ List.replicate 129 0 := by decide
  have h1 : copyAt (List.replicate encodedAdaptorSize (0 : Byte)) 0 33 (C.putBytes a.R)
      = C.putBytes a.R ++ List.replicate 33 0 ++ List.replicate 96 0 := by
    rw [hz, copyAt_exact [] _ _ _ 0 33 rfl (by simp) (by simp [hR])]
    have : List.replicate 129 (0 : Byte) = List.replicate 33 0 ++ List.replicate 96 0 := by
      decide
    rw [this]
    simp
  have h2 : copyAt (C.putBytes a.R ++ List.replicate 33 0 ++ List.replicate 96 0) 33 66
      (C.putBytes a.R_a)
      = C.putBytes a.R ++ C.putBytes a.R_a ++ List.replicate 96 0 :=
    copyAt_exact _ _ _ _ 33 66 hR.symm (by simp) (by simp [hRa])
  have h3 : slice (C.putBytes a.R ++ C.putBytes a.R_a ++ List.replicate 96 0) 66 98
      = List.replicate 32 0 := by
    unfold slice
    have e1 : C.putBytes a.R ++ C.putBytes a.R_a ++ List.replicate 96 (0 : Byte)
        = (C.putBytes a.R ++ C.putBytes a.R_a ++ List.replicate 32 0)
          ++ List.replicate 64 0 := by
      have : List.replicate 96 (0 : Byte) = List.replicate 32 0 ++ List.replicate 64 0 := by
        decide
      rw [this]; simp
    rw [e1, List.take_left' (by simp [hR, hRa])]
    exact List.drop_left' (by simp [hR, hRa])
  have h4 : copyAt (C.putBytes a.R ++ C.putBytes a.R_a ++ List.replicate 96 0) 98 (98 + 32)
      (putB32 a.proof.z)
      = (C.putBytes a.R ++ C.putBytes a.R_a ++ List.replicate 32 0) ++ putB32 a.proof.z
        ++ List.replicate 32 0 := by
    have e1 : C.putBytes a.R ++ C.putBytes a.R_a ++ List.replicate 96 (0 : Byte)
        = (C.putBytes a.R ++ C.putBytes a.R_a ++ List.replicate 32 0)
          ++ List.replicate 32 0 ++ List.replicate 32 0 := by
      have : List.replicate 96 (0 : Byte)
          = List.replicate 32 0 ++ (List.replicate 32 0 ++ List.replicate 32 0) := by decide
      rw [this]; simp
    rw [e1]
    exact copyAt_exact _ _ _ _ 98 (98 + 32) (by simp [hR, hRa]) (by simp)
      (by simp [putB32_length])
  have h5 : copyAt ((C.putBytes a.R ++ C.putBytes a.R_a ++ List.replicate 32 0)
      ++ putB32 a.proof.z ++ List.replicate 32 0) (98 + 32) encodedAdaptorSize
      (putB32 a.proof.s)
      = C.putBytes a.R ++ C.putBytes a.R_a ++ List.replicate 32 0 ++ putB32 a.proof.z
        ++ putB32 a.proof.s := by
    have := copyAt_exact ((C.putBytes a.R ++ C.putBytes a.R_a ++ List.replicate 32 0)
      ++ putB32 a.proof.z) (List.replicate 32 0) [] (putB32 a.proof.s) (98 + 32)
      encodedAdaptorSize (by simp [hR, hRa, putB32_length]) (by simp [encodedAdaptorSize])
      (by simp [putB32_length])
    simpa using this
  have h6 : (SetByteSlice C.n (List.replicate 32 (0 : Byte))).1 = 0 := by
    have : beToNat (List.take 32 (List.replicate 32 (0 : Byte))) = 0 := by decide
    unfold SetByteSlice
    rw [this]
    exact Nat.zero_mod _
  unfold Encode
  simp only [h1, h2, h3, h4, h5, h6]

/-- C5 at a failing input: on secp256k1, encoding the adaptor `(G, G, s = 1,
proof = (2, 3))` and decoding the bytes succeeds, and the decoded adaptor has
the same `R`, `R_a`, `proof.z` and `proof.s` but `s = 0`, not the `s = 1` the
adaptor had before `Encode` was called. -/
theorem roundtrip_loses_s :
    ((Encode secp256k1 sampleAdaptor).1 >>= Decode secp256k1)
        = .ok { R := secp256k1.G, R_a := secp256k1.G, s := 0, proof := { z := 2, s := 3 } } ∧
      sampleAdaptor.s = 1 := by
  decide!

/-- C6, as amended: `Encode` returns exactly 162 bytes (`33 + 33 + 3 * 32`) for
every encrypted signature, and `Decode` fails with the invalid-length error
exactly on inputs whose length is not 162. -/
theorem encoded_size (C : Curve) (a : EncryptedSignature C) (b : List Byte) :
    (∃ bs, (Encode C a).1 = .ok bs ∧ bs.length = 162) ∧
      (Decode C b = .error .invalidLength ↔ b.length ≠ 162) := by
  refine ⟨Encode_length C a, ?_⟩
  unfold Decode
  by_cases hlen : b.length = 162
  · simp only [encodedAdaptorSize, hlen, ne_eq, not_true_eq_false, if_false, iff_false]
    cases C.setBytes (List.take 33 b) with
    | error e => simp
    | ok R =>
      cases C.setBytes (List.take 33 (List.drop 33 b)) with
      | error e => simp
      | ok R_a => simp
  · simp [encodedAdaptorSize, hlen]

/-- C6 as stated fails on secp256k1: the encoding of the adaptor `(G, G, 1,
(2, 3))` has 162 bytes, not 131, and `Decode` rejects a 131-byte input with
the invalid-length error. -/
theorem encoded_size_not_131 :
    (Encode secp256k1 sampleAdaptor).1.map List.length = .ok 162 ∧
      Decode secp256k1 (List.replicate 131 0) = .error .invalidLength := by
  decide!

/-- C7 at a failing input: on secp256k1, the bytes `Encode` returns for the
adaptor `(G, G, s = 1, proof = (2, 3))` are the two compressed points, then 32
zero bytes, then the two proof scalars; the third field is not the encoding of
`s = 1`. -/
theorem encode_third_field_zero :
    (Encode secp256k1 sampleAdaptor).1
        = .ok (secp256k1.putBytes secp256k1.G ++ secp256k1.putBytes secp256k1.G
          ++ List.replicate 32 0 ++ putB32 2 ++ putB32 3) ∧
      putB32 sampleAdaptor.s ≠ List.replicate 32 0 := by
  decide!

/-! ## Message-length checks -/

theorem foldl_be_lt (l : List Byte) (acc : Nat) :
    l.foldl (fun acc x => acc * 256 + x.val) acc < (acc + 1) * 256 ^ l.length := by
  induction l generalizing acc with
  | nil => simp
  | cons x xs ih =>
    simp only [List.foldl_cons, List.length_cons]
    refine lt_of_lt_of_le (ih _) ?_
    have hx : x.val < 256 := x.isLt
    have : acc * 256 + x.val + 1 ≤ (acc + 1) * 256 := by omega
    calc (acc * 256 + x.val + 1) * 256 ^ xs.length
        ≤ ((acc + 1) * 256) * 256 ^ xs.length := Nat.mul_le_mul_right _ this
      _ = (acc + 1) * 256 ^ (xs.length + 1) := by ring

theorem beToNat_lt (l : List Byte) : beToNat l < 256 ^ l.length := by
  have := foldl_be_lt l 0
  simpa [beToNat] using this

/-- `AdaptorSign` never answers a message shorter than 32 bytes with the
invalid-message-length error when the group order exceeds `256 ^ 31`: the test
is the overflow flag of `SetByteSlice`, not the length. -/
theorem AdaptorSign_short_message (C : Curve) (H : DleqHash C) {σ : Type}
    (W : Nat → List Byte → C.Point → NonceFunc σ) (kp : Keypair C) (msg : List Byte)
    (encKey : C.Point) (opt : List (NonceFunc σ)) (t : Except ExtError Nat) (st : σ)
    (hn : 256 ^ 31 ≤ C.n) (hm : msg.length ≤ 31) :
    (AdaptorSign C H W kp msg encKey opt t st).1 ≠ .error (.err .invalidMessageLength) := by
  have hlt : beToNat (msg.take 32) < C.n := by
    refine lt_of_lt_of_le (beToNat_lt _) (le_trans ?_ hn)
    apply Nat.pow_le_pow_right (by decide)
    rw [List.length_take]
    omega
  have hov : decide (C.n ≤ beToNat (msg.take 32)) = false := by
    simpa using hlt
  simp only [AdaptorSign, SetByteSlice, hov]
  split
  · rename_i hfalse
    cases hfalse
  · split
    · simp
    · split
      · rename_i f hf
        rw [fpToFn_error hf]
        simp
      · split
        · simp
        · simp

/-- C8 at a failing input: on secp256k1, `AdaptorSign` called with the 31-byte
message `01 01 … 01` (signer key 1, encryption key `G`, nonce 1) does not fail:
it returns an encrypted signature. -/
theorem adaptor_sign_accepts_31_bytes :
    (List.replicate 31 (1 : Byte)).length = 31 ∧
      (AdaptorSign secp256k1 affHash (fun _ _ _ => constNonce 7) (GenerateKeypair secp256k1 1)
        (List.replicate 31 1) secp256k1.G [constNonce 1] (.ok 1) ()).1.isOk = true ∧
      (AdaptorSign secp256k1 affHash (fun _ _ _ => constNonce 7) (GenerateKeypair secp256k1 1)
        (List.replicate 31 1) secp256k1.G [constNonce 1] (.ok 1) ()).1
        ≠ .error (.err .invalidMessageLength) := by
  decide!

/-- C9: for every message whose length is not 32, `Sign` returns `(nil,
invalid-message-length error)` and leaves the random source untouched (no
nonce is drawn), and `Verify` returns `(false, invalid-message-length error)`
for every public key and signature. -/
theorem message_length_checked (C : Curve) (kp : Keypair C) (key : C.Point)
    (msg : List Byte) (sig : Signature) (rs : RandSource) (hm : msg.length ≠ 32) :
    Sign C kp msg rs = (.error (.err .invalidMessageLength), rs) ∧
      goPair (Verify C key msg sig) = some (false, some .invalidMessageLength) := by
  constructor
  · simp [Sign, MessageLength, hm]
  · simp [Verify, MessageLength, hm, goPair]

/-- Witness for C9 on secp256k1: a 31-byte message. -/
theorem message_length_checked_witness :
    Sign secp256k1 (GenerateKeypair secp256k1 1) (List.replicate 31 1) (constSource 1)
        = (.error (.err .invalidMessageLength), constSource 1) ∧
      goPair (Verify secp256k1 secp256k1.G (List.replicate 31 1) { v := 0, r := 1, s := 1 })
        = some (false, some .invalidMessageLength) :=
  message_length_checked secp256k1 (GenerateKeypair secp256k1 1) secp256k1.G
    (List.replicate 31 1) { v := 0, r := 1, s := 1 } (constSource 1) (by decide)

/-! ## Low-s normalization in `Decrypt` -/

/-- The modelled inverse of a scalar that is nonzero modulo `n` is its inverse
modulo `n`. -/
theorem Curve.Lawful.inverse_mul {C : Curve} (h : C.Lawful) (y : Nat) (hy : y % C.n ≠ 0) :
    inverse C.n y * y % C.n = 1 := by
  haveI : Fact (Nat.Prime C.n) := ⟨h.prime_n⟩
  have hc : ((inverse C.n y * y : Nat) : ZMod C.n) = ((1 : Nat) : ZMod C.n) := by
    rw [Nat.cast_mul, h.inverse_cast, Nat.cast_one, inv_mul_cancel₀ (cast_ne_zero_of_mod hy)]
  have := (ZMod.natCast_eq_natCast_iff' _ _ _).1 hc
  rw [this]
  exact Nat.mod_eq_of_lt (lt_trans (by decide) h.two_lt_n)

/-- The low-s normalization of `Decrypt`: on a lawful curve, for every adaptor
`a` and decryption scalar `y`, `a.Decrypt(y)` returns a signature `(r, s)` with
nil error where, writing `t = a.s * y^-1 mod n`, `s = t` if `t` is not over
half the group order and `s = n - t` otherwise, so `s` is never over half the
group order; `r` is the x-coordinate field of `a.R`, with no conversion. -/
theorem decrypt_low_s (C : Curve) (h : C.Lawful) (a : EncryptedSignature C) (y : Nat) :
    ∃ sig, Decrypt C a y = .ok sig ∧
      sig.s = (if a.s * inverse C.n y % C.n ≤ C.n / 2 then a.s * inverse C.n y % C.n
        else C.n - a.s * inverse C.n y % C.n) ∧
      sig.s ≤ C.n / 2 ∧
      (y % C.n ≠ 0 → inverse C.n y * y % C.n = 1) ∧
      sig.r = C.X a.R := by
  have hpos : 0 < C.n := h.prime_n.pos
  have ht : a.s * inverse C.n y % C.n < C.n := Nat.mod_lt _ hpos
  refine ⟨_, Decrypt_eq C a y, ?_, ?_, h.inverse_mul y, rfl⟩
  · by_cases hhalf : C.n / 2 < a.s * inverse C.n y % C.n
    · simp only [hhalf, if_true, if_neg (Nat.not_le.2 hhalf), Negate]
      rw [Nat.mod_eq_of_lt ht, Nat.mod_eq_of_lt (by omega)]
    · simp only [hhalf, if_false, if_pos (Nat.not_lt.1 hhalf)]
  · by_cases hhalf : C.n / 2 < a.s * inverse C.n y % C.n
    · simp only [hhalf, if_true, Negate]
      rw [Nat.mod_eq_of_lt ht, Nat.mod_eq_of_lt (by omega)]
      omega
    · simp only [hhalf, if_false]
      omega

/-- The low-s normalization on the 31-point curve: decrypting `toyAdaptor`
with 2. -/
theorem decrypt_low_s_toy :
    ∃ sig, Decrypt toy toyAdaptor 2 = .ok sig ∧
      sig.s = (if toyAdaptor.s * inverse toy.n 2 % toy.n ≤ toy.n / 2
        then toyAdaptor.s * inverse toy.n 2 % toy.n
        else toy.n - toyAdaptor.s * inverse toy.n 2 % toy.n) ∧
      sig.s ≤ toy.n / 2 ∧
      (2 % toy.n ≠ 0 → inverse toy.n 2 * 2 % toy.n = 1) ∧
      sig.r = toy.X toyAdaptor.R :=
  decrypt_low_s toy toy_lawful toyAdaptor 2

/-- C10 at a failing input: on secp256k1, for the adaptor whose `R` is the
curve point with x-coordinate `n` and the decryption scalar 1, `Decrypt` hands
on that coordinate with no conversion, `r = n`, which is not a scalar below
`n`; the coordinate reduced into the scalar field is 0, and `fpToFn`, through
which `sign`, `AdaptorSign` and `VerifyAdaptor` pass the same coordinate, does
not let it through. -/
theorem decrypt_r_unreduced :
    secp256k1.onCurve highAdaptor.R = true ∧
      Decrypt secp256k1 highAdaptor 1 = .ok { v := 0, r := secp256k1.n, s := 1 } ∧
      secp256k1.X highAdaptor.R % secp256k1.n = 0 ∧
      fpToFn secp256k1 (secp256k1.X highAdaptor.R) = .error .panicked := by
  decide!

/-! ## The decision structure of `VerifyAdaptor` -/

/-- The decision structure of `VerifyAdaptor` once the message check has let
the message through with scalar `z` and `fpToFn` has returned the scalar `r`
of the x-coordinate of `a.R`: `(false, nil)` on a point mismatch, otherwise
what `dleqVerify` answers. -/
theorem VerifyAdaptor_decision (C : Curve) (H : DleqHash C) (key : C.Point) (msg : List Byte)
    (Y : C.Point) (a : EncryptedSignature C) (z r : Nat)
    (hz : SetByteSlice C.n msg = (z, false)) (hr : fpToFn C (C.X a.R) = .ok r) :
    VerifyAdaptor C H key msg Y a =
      if C.Scale (C.add (C.BaseExp z) (C.Scale key r)) (inverse C.n a.s) ≠ a.R_a then .ok false
      else .ok (dleqVerify C H Y a.proof a.R_a a.R) := by
  unfold VerifyAdaptor
  rw [hz]
  simp only [Bool.false_eq_true, if_false, bind, Except.bind, hr]
  rfl

/-- `VerifyAdaptor` panics as soon as the message passes its check and the
x-coordinate of `a.R` is not below `n`. -/
theorem VerifyAdaptor_panic (C : Curve) (H : DleqHash C) (key : C.Point) (msg : List Byte)
    (Y : C.Point) (a : EncryptedSignature C)
    (hz : (SetByteSlice C.n msg).2 = false) (h256 : C.X a.R < 2 ^ 256)
    (hX : C.n ≤ C.X a.R) :
    VerifyAdaptor C H key msg Y a = .error .panicked := by
  simp only [SetByteSlice] at hz
  simp only [VerifyAdaptor, SetByteSlice, hz]
  rw [fpToFn_eq C _ h256, if_pos hX]
  rfl

/-- C11 at two failing inputs, on secp256k1. For the 32-byte message `ff … ff`
and the adaptor `(G, G, 1, (2, 3))`, `VerifyAdaptor` returns `(false,
invalid-message-length error)`, an error and not a value. For the digest 1 and
the adaptor whose `R` is the curve point with x-coordinate `n`, it panics and
returns nothing. -/
theorem verify_adaptor_error_and_panic :
    (List.replicate 32 (255 : Byte)).length = 32 ∧
      goPair (VerifyAdaptor secp256k1 affHash secp256k1.G (List.replicate 32 255) secp256k1.G
        sampleAdaptor) = some (false, some .invalidMessageLength) ∧
      secp256k1.onCurve highAdaptor.R = true ∧
      goPair (VerifyAdaptor secp256k1 affHash secp256k1.G (putB32 1) secp256k1.G highAdaptor)
        = none := by
  decide!

/-! ## Failure cases of recovery -/

/-- What `RecoverFromAdaptorAndSignature` returns when `a.R` is not the point at
infinity. -/
theorem Recover_eq (C : Curve) (a : EncryptedSignature C) (Y : C.Point) (sig : Signature)
    (hR : a.R ≠ C.infinity) :
    RecoverFromAdaptorAndSignature C a Y sig =
      if C.X a.R ≠ sig.r then .error (.err .rCheckFailed)
      else if Y = C.BaseExp (inverse C.n sig.s * a.s % C.n)
        then .ok (inverse C.n sig.s * a.s % C.n)
      else if Y = C.neg (C.BaseExp (inverse C.n sig.s * a.s % C.n))
        then .ok (Negate C.n (inverse C.n sig.s * a.s % C.n))
      else .error (.err .yCheckFailed) := by
  unfold RecoverFromAdaptorAndSignature
  rw [XY_of_ne hR]
  rfl

/-- When `a.R` is the point at infinity, the error of `XY` is returned before
any check. -/
theorem Recover_infinity (C : Curve) (a : EncryptedSignature C) (Y : C.Point) (sig : Signature)
    (hR : a.R = C.infinity) :
    RecoverFromAdaptorAndSignature C a Y sig = .error (.err (.external .pointAtInfinity)) := by
  unfold RecoverFromAdaptorAndSignature Curve.XY
  rw [if_pos hR]
  rfl

/-- C12, as amended: for every adaptor `a` whose `R` is not the point at
infinity, every encryption key `Y` and signature `sig`,
`RecoverFromAdaptorAndSignature` fails with the r-check error whenever `sig.r`
differs from the x-coordinate of `a.R`, and, when the r check passes, fails
with the y-check error exactly when, for `y' = sig.s^-1 * a.s`, neither
`y'*G == Y` nor `-(y'*G) == Y`; these are its only failures, and a failure
returns no scalar. -/
theorem recover_failures (C : Curve) (a : EncryptedSignature C) (Y : C.Point)
    (sig : Signature) (hR : a.R ≠ C.infinity) :
    (sig.r ≠ C.X a.R →
        RecoverFromAdaptorAndSignature C a Y sig = .error (.err .rCheckFailed)) ∧
      (sig.r = C.X a.R →
        (RecoverFromAdaptorAndSignature C a Y sig = .error (.err .yCheckFailed) ↔
          (C.BaseExp (inverse C.n sig.s * a.s % C.n) ≠ Y ∧
            C.neg (C.BaseExp (inverse C.n sig.s * a.s % C.n)) ≠ Y))) ∧
      (∀ e, RecoverFromAdaptorAndSignature C a Y sig = .error e →
        e = .err .rCheckFailed ∨ e = .err .yCheckFailed) := by
  rw [Recover_eq C a Y sig hR]
  refine ⟨?_, ?_, ?_⟩
  · intro hne
    rw [if_pos (fun h => hne h.symm)]
  · intro heq
    rw [if_neg (not_not.2 heq.symm)]
    by_cases h1 : Y = C.BaseExp (inverse C.n sig.s * a.s % C.n)
    · rw [if_pos h1]
      constructor
      · intro h; cases h
      · intro h; exact absurd h1.symm h.1
    · rw [if_neg h1]
      by_cases h2 : Y = C.neg (C.BaseExp (inverse C.n sig.s * a.s % C.n))
      · rw [if_pos h2]
        constructor
        · intro h; cases h
        · intro h; exact absurd h2.symm h.2
      · rw [if_neg h2]
        constructor
        · intro _; exact ⟨fun h => h1 h.symm, fun h => h2 h.symm⟩
        · intro _; rfl
  · intro e he
    split at he
    · left; cases he; rfl
    · split at he
      · cases he
      · split at he
        · cases he
        · right; cases he; rfl

/-- Witness for C12 on the 31-point curve, at two failing calls with
`toyAdaptor`, whose `R` has the x-coordinate 21, and the encryption key `2*G`:
the signature `(5, 14)` fails the r check; the signature `(21, 1)` passes it
and, with `y' = 3`, fails the y check. -/
theorem recover_failures_witness :
    toyAdaptor.R ≠ toy.infinity ∧
      (5 : Nat) ≠ toy.X toyAdaptor.R ∧
      RecoverFromAdaptorAndSignature toy toyAdaptor (toy.BaseExp 2) { v := 0, r := 5, s := 14 }
        = .error (.err .rCheckFailed) ∧
      (21 : Nat) = toy.X toyAdaptor.R ∧
      toy.BaseExp (inverse toy.n 1 * toyAdaptor.s % toy.n) ≠ toy.BaseExp 2 ∧
      toy.neg (toy.BaseExp (inverse toy.n 1 * toyAdaptor.s % toy.n)) ≠ toy.BaseExp 2 ∧
      RecoverFromAdaptorAndSignature toy toyAdaptor (toy.BaseExp 2) { v := 0, r := 21, s := 1 }
        = .error (.err .yCheckFailed) :=
  ⟨by decide, by decide,
    (recover_failures toy toyAdaptor (toy.BaseExp 2) { v := 0, r := 5, s := 14 }
      (by decide)).1 (by decide),
    by decide, by decide, by decide,
    ((recover_failures toy toyAdaptor (toy.BaseExp 2) { v := 0, r := 21, s := 1 }
      (by decide)).2.1 (by decide)).2 ⟨by decide, by decide⟩⟩

/-- C12 as stated fails on secp256k1: for the adaptor whose `R` is the point at
infinity and the encryption key `G`, recovery with the signature `(0, 1)` and
recovery with the signature `(1, 1)` both fail with the error of `XY`, which
is neither the r-check error nor the y-check error. The two signatures differ
in `r`, so at least one of them differs from whatever is read as the
x-coordinate of that point, and for it the claim requires the r-check
error. -/
theorem recover_infinity_error :
    infinityAdaptor.R = secp256k1.infinity ∧
      RecoverFromAdaptorAndSignature secp256k1 infinityAdaptor secp256k1.G
        { v := 0, r := 0, s := 1 } = .error (.err (.external .pointAtInfinity)) ∧
      RecoverFromAdaptorAndSignature secp256k1 infinityAdaptor secp256k1.G
        { v := 0, r := 1, s := 1 } = .error (.err (.external .pointAtInfinity)) ∧
      Fault.err (Error.external ExtError.pointAtInfinity) ≠ .err .rCheckFailed ∧
      Fault.err (Error.external ExtError.pointAtInfinity) ≠ .err .yCheckFailed := by
  decide!

/-! ## Panics in verification -/

/-- C13 at two failing inputs, on secp256k1. The adaptor whose `R` is the curve
point with x-coordinate `n` (and whose `R_a` is `G`) makes `VerifyAdaptor`
panic in `fpToFn`; the public key with x-coordinate `n`, the all-zero digest
and the signature `(1, 1)` make `Verify` panic in `fpToFn`. -/
theorem verification_panics :
    secp256k1.onCurve highAdaptor.R = true ∧ secp256k1.onCurve highAdaptor.R_a = true ∧
      VerifyAdaptor secp256k1 affHash secp256k1.G (putB32 1) secp256k1.G highAdaptor
        = .error .panicked ∧
      secp256k1.onCurve highPoint = true ∧
      Verify secp256k1 highPoint (putB32 0) { v := 0, r := 1, s := 1 } = .error .panicked := by
  decide!

/-! ## What the consumers of an adaptor leave behind -/

/-- C14 at a failing input: on secp256k1, `Encode` called on the adaptor `(G,
G, s = 1, proof = (2, 3))` leaves it with `s = 0`; the other fields are
unchanged. -/
theorem encode_overwrites_s :
    sampleAdaptor.s = 1 ∧
      (Encode secp256k1 sampleAdaptor).2
        = { R := secp256k1.G, R_a := secp256k1.G, s := 0, proof := { z := 2, s := 3 } } := by
  decide!

/-! ## Scalar overflow in `Decode` -/

/-- The slice `b[lo : lo+len]` is `len` bytes after dropping `lo`. -/
theorem slice_eq (b : List Byte) (lo len : Nat) :
    slice b lo (lo + len) = (b.drop lo).take len := by
  unfold slice
  rw [List.drop_take]
  simp

/-- C15, as amended: scalar overflow is not rejected when decoding signature
components. For every correctly sized input `b` whose two points decode,
`Decode(b)` succeeds, and each of the 32-byte fields `s`, `proof.z` and
`proof.s` is stored as its big-endian value reduced modulo `n`, whether or not
that value is below `n`. -/
theorem decode_reduces (C : Curve) (b : List Byte) (R R_a : C.Point) (hlen : b.length = 162)
    (h1 : C.setBytes (slice b 0 33) = .ok R) (h2 : C.setBytes (slice b 33 66) = .ok R_a) :
    Decode C b = .ok
      { R := R, R_a := R_a,
        s := beToNat (slice b 66 98) % C.n,
        proof :=
          { z := beToNat (slice b 98 130) % C.n,
            s := beToNat (slice b 130 162) % C.n } } := by
  have e0 : slice b 0 33 = b.take 33 := by simpa using slice_eq b 0 33
  have e1 : slice b 33 66 = (b.drop 33).take 33 := slice_eq b 33 33
  have e2 : slice b 66 98 = ((b.drop 33).drop 33).take 32 := by
    rw [List.drop_drop]; exact slice_eq b 66 32
  have e3 : slice b 98 130 = (((b.drop 33).drop 33).drop 32).take 32 := by
    rw [List.drop_drop, List.drop_drop]; exact slice_eq b 98 32
  have e4 : slice b 130 162 = ((((b.drop 33).drop 33).drop 32).drop 32).take 32 := by
    rw [List.drop_drop, List.drop_drop, List.drop_drop]; exact slice_eq b 130 32
  rw [e0] at h1
  rw [e1] at h2
  rw [e2, e3, e4]
  unfold Decode
  rw [if_neg (by simp [encodedAdaptorSize, hlen])]
  simp only [h1, h2, SetByteSlice, List.take_take, Nat.min_self]

/-- Witness for C15 on secp256k1: the 162-byte input with the points `G`, `G`
and the scalars 1, 2, 3. -/
theorem decode_reduces_witness :
    Decode secp256k1 sampleInput = .ok
      { R := secp256k1.G, R_a := secp256k1.G,
        s := beToNat (slice sampleInput 66 98) % secp256k1.n,
        proof :=
          { z := beToNat (slice sampleInput 98 130) % secp256k1.n,
            s := beToNat (slice sampleInput 130 162) % secp256k1.n } } :=
  decode_reduces secp256k1 sampleInput secp256k1.G secp256k1.G (by decide!) (by decide!)
    (by decide!)

/-- C15 as stated fails on secp256k1: for the 162-byte input with the valid
points `G`, `G` and a third field `ff … ff`, whose value is above `n`,
`Decode` does not fail; it returns the adaptor with `s = 2^256 - 1 - n`. -/
theorem decode_reduces_overflow :
    overflowInput.length = 162 ∧
      secp256k1.n ≤ beToNat (slice overflowInput 66 98) ∧
      Decode secp256k1 overflowInput
        = .ok { R := secp256k1.G, R_a := secp256k1.G,
                s := 2 ^ 256 - 1 - secp256k1.n, proof := { z := 2, s := 3 } } := by
  decide!

/-! ## Nonce failure -/

/-- With a message that passes the message check, a failing nonce function
makes `AdaptorSign` return its error and the state its one call left. -/
theorem AdaptorSign_nonce_error (C : Curve) (H : DleqHash C) {σ : Type}
    (W : Nat → List Byte → C.Point → NonceFunc σ) (kp : Keypair C) (msg : List Byte)
    (encKey : C.Point) (f : NonceFunc σ) (rest : List (NonceFunc σ))
    (t : Except ExtError Nat) (st st1 : σ) (e : ExtError)
    (hz : (SetByteSlice C.n msg).2 = false) (hf : f st = (.error e, st1)) :
    AdaptorSign C H W kp msg encKey (f :: rest) t st = (.error (.err (.external e)), st1) := by
  simp only [SetByteSlice] at hz
  simp only [AdaptorSign, SetByteSlice, hz, hf]
  rfl

/-- The supplied nonce function is called at most once. -/
theorem AdaptorSign_calls (C : Curve) (H : DleqHash C) {σ : Type}
    (W : Nat → List Byte → C.Point → NonceFunc (σ × Nat)) (kp : Keypair C) (msg : List Byte)
    (encKey : C.Point) (f : NonceFunc σ) (rest : List (NonceFunc (σ × Nat)))
    (t : Except ExtError Nat) (st : σ) (c : Nat) :
    (AdaptorSign C H W kp msg encKey (counted f :: rest) t (st, c)).2.2 ≤ c + 1 := by
  simp only [AdaptorSign, counted]
  split
  · simp
  · cases hf : (f st).1 with
    | error e => simp
    | ok k =>
      simp only
      split
      · simp
      · split
        · simp
        · simp

/-- C16: for every signer key, message and encryption key, if the
caller-supplied nonce function returns an error `e`, then `AdaptorSign` invokes
it at most once, returns no `EncryptedSignature`, and, once it has invoked the
function, returns `(nil, e)` with the state that one call left. Every message
that passes the message check makes it invoke the function; a message that
does not is answered before the function is invoked. The supplied function
carries a call counter. -/
theorem nonce_failure_aborts (C : Curve) (H : DleqHash C) {σ : Type}
    (W : Nat → List Byte → C.Point → NonceFunc (σ × Nat)) (kp : Keypair C) (msg : List Byte)
    (encKey : C.Point) (f : NonceFunc σ) (rest : List (NonceFunc (σ × Nat)))
    (t : Except ExtError Nat) (st st1 : σ) (c : Nat) (e : ExtError)
    (hf : f st = (.error e, st1)) :
    (AdaptorSign C H W kp msg encKey (counted f :: rest) t (st, c)).2.2 ≤ c + 1 ∧
      (∀ a, (AdaptorSign C H W kp msg encKey (counted f :: rest) t (st, c)).1 ≠ .ok a) ∧
      ((AdaptorSign C H W kp msg encKey (counted f :: rest) t (st, c)).2.2 = c + 1 →
        AdaptorSign C H W kp msg encKey (counted f :: rest) t (st, c)
          = (.error (.err (.external e)), (st1, c + 1))) ∧
      ((SetByteSlice C.n msg).2 = false →
        (AdaptorSign C H W kp msg encKey (counted f :: rest) t (st, c)).2.2 = c + 1) ∧
      ((SetByteSlice C.n msg).2 = true →
        AdaptorSign C H W kp msg encKey (counted f :: rest) t (st, c)
          = (.error (.err .invalidMessageLength), (st, c))) := by
  have hc : counted f (st, c) = (.error e, (st1, c + 1)) := by
    simp only [counted, hf]
  cases hz : (SetByteSlice C.n msg).2 with
  | true =>
    have hout : AdaptorSign C H W kp msg encKey (counted f :: rest) t (st, c)
        = (.error (.err .invalidMessageLength), (st, c)) := by
      simp only [SetByteSlice] at hz
      simp only [AdaptorSign, SetByteSlice, hz]
      rfl
    rw [hout]
    refine ⟨by simp, ?_, ?_, ?_, ?_⟩
    · intro a h; cases h
    · intro h; simp at h
    · intro h; cases h
    · intro _; rfl
  | false =>
    rw [AdaptorSign_nonce_error C H W kp msg encKey (counted f) rest t (st, c) (st1, c + 1) e
      hz hc]
    refine ⟨le_refl _, ?_, ?_, ?_, ?_⟩
    · intro a h; cases h
    · intro _; rfl
    · intro _; rfl
    · intro h; cases h

/-- Witness for C16 on secp256k1: signer key 1, the digest 1, the encryption
key `G` and a supplied nonce function that returns the error `other 7`; the
function is invoked once and `AdaptorSign` returns that error. -/
theorem nonce_failure_aborts_witness :
    failNonce (.other 7) () = (.error (.other 7), ()) ∧
      (putB32 1).length = 32 ∧
      AdaptorSign secp256k1 affHash (fun _ _ _ => counted (constNonce 7))
        (GenerateKeypair secp256k1 1) (putB32 1) secp256k1.G
        [counted (failNonce (.other 7))] (.ok 1) ((), 0)
        = (.error (.err (.external (.other 7))), ((), 1)) :=
  ⟨rfl, by decide,
    (nonce_failure_aborts secp256k1 affHash (fun _ _ _ => counted (constNonce 7))
      (GenerateKeypair secp256k1 1) (putB32 1) secp256k1.G (failNonce (.other 7)) []
      (.ok 1) () () 0 (.other 7) rfl).2.2.1
      ((nonce_failure_aborts secp256k1 affHash (fun _ _ _ => counted (constNonce 7))
        (GenerateKeypair secp256k1 1) (putB32 1) secp256k1.G (failNonce (.other 7)) []
        (.ok 1) () () 0 (.other 7) rfl).2.2.2.1 (by decide!))⟩

/-! ## The recovery id -/

/-- C17 at a failing input: on secp256k1, for the signer key 11, the all-zero
digest, the encryption key `1*G` and the nonce 11, `Decrypt` returns the
signature of `AdaptorSign`'s adaptor with `v = 0`; recovery from `(m, r, s,
0)` yields a key other than `11*G`, recovery with the recovery id 1 yields
`11*G`. -/
theorem recovery_id_missing :
    (AdaptorSign secp256k1 affHash (fun _ _ _ => constNonce 7) (GenerateKeypair secp256k1 11)
        (putB32 0) (secp256k1.BaseExp 1) [constNonce 11] (.ok 1) ()).1 = .ok oddAdaptor ∧
      Decrypt secp256k1 oddAdaptor 1 = .ok oddSignature ∧
      oddSignature.v = 0 ∧
      secpRecover (putB32 0) oddSignature ≠ some (GenerateKeypair secp256k1 11).publicKey ∧
      secpRecover (putB32 0) { oddSignature with v := 1 }
        = some (GenerateKeypair secp256k1 11).publicKey := by
  decide!

/-! ## Any verified adaptor completes to a valid signature -/

/-- `Verify` accepts `(r, s)` under a key `P` on the curve as soon as the point
it reconstructs is a point `T` other than the point at infinity whose
x-coordinate is `r`, below `n`. -/
theorem verify_of_point {C : Curve} (h : C.Lawful) (P : C.Point) (msg : List Byte)
    (hm : msg.length = 32) (sig : Signature) (T : h.V)
    (hpt : C.Scale (C.add (C.Scale P sig.r) (C.BaseExp (SetB32 C.n msg).1))
      (inverse C.n sig.s) = T.1)
    (hT : T ≠ 0) (hr : C.X T.1 = sig.r) (hlt : sig.r < C.n) :
    Verify C P msg sig = .ok true := by
  have hne : T.1 ≠ C.infinity := fun h0 => hT (Subtype.ext h0)
  unfold Verify
  simp only [MessageLength, hm, ne_eq, not_true_eq_false, if_false]
  rw [hpt, XY_of_ne hne]
  simp only [bind, Except.bind]
  rw [fpToFn_eq C _ (h.X_lt256 _), hr, if_neg (Nat.not_le.2 hlt)]
  simp [pure, Except.pure]

/-- C18: on a lawful curve, for every public key `P` on the curve, 32-byte
message `m`, scalars `k` and `y` nonzero modulo `n`, with `Y = y*G`, and every
adaptor `a` with `a.R = k*Y`, `a.R_a = k*G` that passes the point check of
`VerifyAdaptor`, `a.R_a == (z*G + r*P) * a.s^-1` with `r` the scalar `fpToFn`
returns for the x-coordinate of `a.R`, the signature returned by
`a.Decrypt(y)` is accepted by `Verify(P, m, ·)` with result `(true, nil)`. -/
theorem verified_adaptor_completes (C : Curve) (h : C.Lawful) (P : C.Point)
    (hP : C.onCurve P = true) (msg : List Byte) (hm : msg.length = 32) (k y : Nat)
    (hk : k % C.n ≠ 0) (hy : y % C.n ≠ 0) (a : EncryptedSignature C)
    (hR : a.R = C.Scale (C.BaseExp y) k) (hRa : a.R_a = C.BaseExp k) (r : Nat)
    (hr : fpToFn C (C.X a.R) = .ok r)
    (hcheck : C.Scale (C.add (C.BaseExp (SetByteSlice C.n msg).1) (C.Scale P r))
      (inverse C.n a.s) = a.R_a) :
    ∃ sig, Decrypt C a y = .ok sig ∧ goPair (Verify C P msg sig) = some (true, none) := by
  haveI : Fact (Nat.Prime C.n) := ⟨h.prime_n⟩
  obtain ⟨Pv, rfl⟩ : ∃ Pv : h.V, Pv.1 = P := ⟨⟨P, hP⟩, rfl⟩
  have hkc : ((k : Nat) : ZMod C.n) ≠ 0 := cast_ne_zero_of_mod hk
  have hyc : ((y : Nat) : ZMod C.n) ≠ 0 := cast_ne_zero_of_mod hy
  have hRv : a.R = ((((k : Nat) : ZMod C.n) * (y : ZMod C.n)) • h.g).1 := by
    rw [hR, h.BaseExp_val, h.Scale_val, smul_smul]
  have hX256 : C.X a.R < 2 ^ 256 := by rw [hRv]; exact h.X_lt256 _
  obtain ⟨hr1, hXn⟩ := fpToFn_ok hX256 hr
  subst hr1
  have hzeq : (SetB32 C.n msg).1 = (SetByteSlice C.n msg).1 := by
    simp [SetB32, SetByteSlice, List.take_of_length_le (le_of_eq hm)]
  -- the point check, in the group
  have hchk : (a.s : ZMod C.n)⁻¹ •
      ((((SetByteSlice C.n msg).1 : Nat) : ZMod C.n) • h.g
        + ((C.X a.R : Nat) : ZMod C.n) • Pv)
      = ((k : Nat) : ZMod C.n) • h.g := by
    apply Subtype.ext
    rw [← h.BaseExp_val k, ← hRa, ← hcheck, h.BaseExp_val, h.Scale_val Pv, h.add_val,
      h.Scale_val, h.inverse_cast]
  have hsc : ((a.s : Nat) : ZMod C.n) ≠ 0 := by
    intro h0
    rw [h0, inv_zero, zero_smul] at hchk
    exact hkc (h.smul_g_eq_zero hchk.symm)
  have hsum : (((SetByteSlice C.n msg).1 : Nat) : ZMod C.n) • h.g
      + ((C.X a.R : Nat) : ZMod C.n) • Pv
      = ((a.s : ZMod C.n) * (k : ZMod C.n)) • h.g := by
    have := congrArg (fun v => (a.s : ZMod C.n) • v) hchk
    simp only [smul_smul, mul_inv_cancel₀ hsc, one_smul] at this
    exact this
  obtain ⟨sig, hd⟩ : ∃ sig, Decrypt C a y = .ok sig := ⟨_, Decrypt_eq C a y⟩
  obtain ⟨hsr, hcases⟩ := Decrypt_cast h a y sig hd
  refine ⟨sig, hd, ?_⟩
  have hky : ((k : Nat) : ZMod C.n) * (y : ZMod C.n) ≠ 0 := mul_ne_zero hkc hyc
  -- the point `Verify` reconstructs
  have hrec : ∀ e : ZMod C.n, ((sig.s : Nat) : ZMod C.n) = e * ((a.s : ZMod C.n) * (y : ZMod C.n)⁻¹) →
      e * e = 1 →
      C.Scale (C.add (C.Scale Pv.1 sig.r) (C.BaseExp (SetB32 C.n msg).1)) (inverse C.n sig.s)
        = ((e * ((k : ZMod C.n) * (y : ZMod C.n))) • h.g).1 := by
    intro e he hee
    have he0 : e ≠ 0 := by
      intro h0; rw [h0, mul_zero] at hee; exact zero_ne_one hee
    have hinv : e⁻¹ = e := by
      have := congrArg (fun t => e⁻¹ * t) hee
      simpa [← mul_assoc, inv_mul_cancel₀ he0] using this.symm
    rw [hsr, hzeq, h.Scale_val Pv, h.BaseExp_val, h.add_val, h.Scale_val, h.inverse_cast,
      add_comm, hsum, smul_smul, he]
    congr 2
    rw [mul_inv, mul_inv, inv_inv, hinv]
    calc e * ((a.s : ZMod C.n)⁻¹ * (y : ZMod C.n)) * ((a.s : ZMod C.n) * (k : ZMod C.n))
        = e * ((k : ZMod C.n) * (y : ZMod C.n)) * ((a.s : ZMod C.n)⁻¹ * (a.s : ZMod C.n)) := by
          ring
      _ = e * ((k : ZMod C.n) * (y : ZMod C.n)) := by rw [inv_mul_cancel₀ hsc, mul_one]
  have hver : Verify C Pv.1 msg sig = .ok true := by
    rcases hcases with hc | hc
    · have := hrec 1 (by rw [hc, one_mul]) (one_mul 1)
      rw [one_mul] at this
      apply verify_of_point h Pv.1 msg hm sig _ this
      · intro h0; exact hky (h.smul_g_eq_zero h0)
      · rw [← hRv, hsr]
      · rw [hsr]; exact hXn
    · have := hrec (-1) (by rw [hc]; ring) (by ring)
      apply verify_of_point h Pv.1 msg hm sig _ this
      · intro h0
        have := h.smul_g_eq_zero h0
        rw [neg_one_mul, neg_eq_zero] at this
        exact hky this
      · rw [neg_one_mul, neg_smul, h.X_neg_val, ← hRv, hsr]
      · rw [hsr]; exact hXn
  rw [hver]
  rfl

/-- Witness for C18 on the 31-point curve: key `3*G`, digest 5, `k = 2`,
`y = 2` and `toyAdaptor`. -/
theorem verified_adaptor_completes_witness :
    ∃ sig, Decrypt toy toyAdaptor 2 = .ok sig ∧
      goPair (Verify toy (toy.BaseExp 3) (putB32 5) sig) = some (true, none) :=
  verified_adaptor_completes toy toy_lawful (toy.BaseExp 3) (by decide) (putB32 5) (by decide)
    2 2 (by decide) (by decide) toyAdaptor (by decide!) (by decide!) 21 (by decide!)
    (by decide!)

/-! ## Recovery is sound -/

/-- C19: on a lawful curve, for every adaptor `a`, encryption key `Y` and
signature `sig`, if `RecoverFromAdaptorAndSignature(a, Y, sig)` returns a
scalar `y'` without error, then `y'*G == Y`, on the direct branch and on the
negated branch. -/
theorem recover_sound (C : Curve) (h : C.Lawful) (a : EncryptedSignature C) (Y : C.Point)
    (sig : Signature) (y' : Nat)
    (hrec : RecoverFromAdaptorAndSignature C a Y sig = .ok y') : C.BaseExp y' = Y := by
  by_cases hR : a.R = C.infinity
  · rw [Recover_infinity C a Y sig hR] at hrec
    cases hrec
  · rw [Recover_eq C a Y sig hR] at hrec
    split at hrec
    · cases hrec
    · split at hrec
      · rename_i h1
        simp only [Except.ok.injEq] at hrec
        rw [← hrec]
        exact h1.symm
      · split at hrec
        · rename_i h2
          simp only [Except.ok.injEq] at hrec
          rw [← hrec, h2, h.BaseExp_val, h.BaseExp_val, Negate_cast _ _ h.prime_n.pos,
            neg_smul, h.neg_val]
        · cases hrec

/-- Witness for C19 on the 31-point curve: recovery from `toyAdaptor` and the
signature `(21, 14)` takes the negated branch and returns 2, for the key
`2*G = (7, 7)`. -/
theorem recover_sound_witness :
    RecoverFromAdaptorAndSignature toy toyAdaptor (some (7, 7)) { v := 0, r := 21, s := 14 }
        = .ok 2 ∧
      toy.BaseExp 2 = (some (7, 7) : Affine) :=
  ⟨by decide!, recover_sound toy toy_lawful toyAdaptor (some (7, 7)) { v := 0, r := 21, s := 14 } 2
    (by decide!)⟩

/-! ## `Verify` and the negation of `s` -/

/-- Negating a point does not change what `XY` returns. -/
theorem XY_neg {C : Curve} (h : C.Lawful) (v : h.V) : C.XY (-v).1 = C.XY v.1 := by
  unfold Curve.XY
  have hiff : (-v).1 = C.infinity ↔ v.1 = C.infinity := by
    constructor
    · intro h0
      have : -v = 0 := Subtype.ext h0
      have hv : v = 0 := neg_eq_zero.1 this
      rw [hv]; rfl
    · intro h0
      have hv : v = 0 := Subtype.ext h0
      rw [hv, neg_zero]; rfl
  by_cases hv : v.1 = C.infinity
  · rw [if_pos hv, if_pos (hiff.2 hv)]
  · rw [if_neg hv, if_neg (fun h0 => hv (hiff.1 h0)), h.X_neg_val]

/-- C20: on a lawful curve, for every public key `P` on the curve, every
message `m` and signature components `(r, s)` with `s` a scalar below `n`,
`Verify(P, m, (r, s))` and `Verify(P, m, (r, n - s))` end the same way: the
same `(bool, error)` result. -/
theorem verify_neg_s (C : Curve) (h : C.Lawful) (P : C.Point) (hP : C.onCurve P = true)
    (msg : List Byte) (v v' r s : Nat) (hs : s < C.n) :
    Verify C P msg { v := v, r := r, s := s }
      = Verify C P msg { v := v', r := r, s := C.n - s } := by
  haveI : Fact (Nat.Prime C.n) := ⟨h.prime_n⟩
  have hcast : ((C.n - s : Nat) : ZMod C.n) = -(s : ZMod C.n) := by
    rw [Nat.cast_sub hs.le, ZMod.natCast_self, zero_sub]
  unfold Verify
  by_cases hm : msg.length ≠ MessageLength
  · rw [if_pos hm, if_pos hm]
  · rw [if_neg hm, if_neg hm]
    have hpt : C.Scale (C.add (C.Scale P r) (C.BaseExp (SetB32 C.n msg).1)) (inverse C.n (C.n - s))
        = C.neg (C.Scale (C.add (C.Scale P r) (C.BaseExp (SetB32 C.n msg).1)) (inverse C.n s)) := by
      rw [h.Scale_val ⟨P, hP⟩, h.BaseExp_val, h.add_val, h.Scale_val, h.Scale_val, h.neg_val,
        h.inverse_cast, h.inverse_cast, hcast, inv_neg, neg_smul]
    dsimp only
    rw [hpt, h.Scale_val ⟨P, hP⟩, h.BaseExp_val, h.add_val, h.Scale_val, h.neg_val, XY_neg]

/-- Witness for C20 on the 31-point curve: key `3*G`, digest 5 and the
signatures `(21, 14)` and `(21, 31 - 14)`. -/
theorem verify_neg_s_witness :
    Verify toy (toy.BaseExp 3) (putB32 5) { v := 0, r := 21, s := 14 }
        = Verify toy (toy.BaseExp 3) (putB32 5) { v := 0, r := 21, s := toy.n - 14 } ∧
      goPair (Verify toy (toy.BaseExp 3) (putB32 5) { v := 0, r := 21, s := 14 })
        = some (true, none) :=
  ⟨verify_neg_s toy toy_lawful (toy.BaseExp 3) (by decide) (putB32 5) 0 0 21 14 (by decide),
    by decide!⟩

end Adaptor
